import Mathlib

/-!
Verification of the dynamic-memory-allocator repository.

The AVL free-block index (src/avl.c) is embedded as a functional binary
tree whose nodes carry the key pair (size, address) together with the
cached height field that the C nodes store.  The allocator facade
(src/malloc.c, src/free.c, src/realloc.c) is embedded as a state machine
over the ordered sequence of boundary-tagged blocks of the heap, with
payload bytes tracked per block.
-/

namespace Alloc

/-- Key of a free-block node: the pair (block size, node address).
The C code compares by `size` with the node address as tie breaker. -/
abbrev Key := Nat × Nat

/-- The AVL tree of free blocks (struct free_block): each node stores its
key (the size field and its own address) and the cached `height` field;
a null pointer is `leaf`. -/
inductive Tree where
  | leaf : Tree
  | node (key : Key) (h : Nat) (left right : Tree) : Tree
deriving Repr, DecidableEq

/-- Source function cmp (avl.c): compares blocks by size, tie-break by
address. Returns -1, 0 or 1. -/
def cmp (a b : Key) : Int :=
  if a.1 < b.1 then -1
  else if b.1 < a.1 then 1
  else if a.2 < b.2 then -1
  else if b.2 < a.2 then 1
  else 0

/-- Source function height (avl.c): cached AVL height, 0 for null. -/
def height : Tree → Nat
  | .leaf => 0
  | .node _ h _ _ => h

/-- Source function getBalance (avl.c): height(right) - height(left). -/
def getBalance : Tree → Int
  | .leaf => 0
  | .node _ _ l r => (height r : Int) - height l

/-- Source function rotate_left (avl.c). Returns the tree unchanged when
the root or its right child is null; otherwise performs the rotation and
recomputes the two touched heights in source order. -/
def rotate_left : Tree → Tree
  | .leaf => .leaf
  | .node k h l .leaf => .node k h l .leaf
  | .node k _ l (.node rk _ rl rr) =>
    let root := Tree.node k (max (height l) (height rl) + 1) l rl
    Tree.node rk (max (height root) (height rr) + 1) root rr

/-- Source function rotate_right (avl.c), mirror of rotate_left. -/
def rotate_right : Tree → Tree
  | .leaf => .leaf
  | .node k h .leaf r => .node k h .leaf r
  | .node k _ (.node lk _ ll lr) r =>
    let root := Tree.node k (max (height lr) (height r) + 1) lr r
    Tree.node lk (max (height ll) (height root) + 1) ll root

/-- The tail of source function insert (avl.c) after the recursive call:
update the height of the root from its children and apply the
rebalancing case split exactly as written (strict comparisons on the
child balance). -/
def insertStep (rk : Key) (l r : Tree) : Tree :=
  if (height r : Int) - height l < -1 ∧ getBalance l < 0 then
    rotate_right (.node rk (max (height l) (height r) + 1) l r)
  else if 1 < (height r : Int) - height l ∧ 0 < getBalance r then
    rotate_left (.node rk (max (height l) (height r) + 1) l r)
  else if (height r : Int) - height l < -1 ∧ 0 < getBalance l then
    rotate_right (.node rk (max (height l) (height r) + 1) (rotate_left l) r)
  else if 1 < (height r : Int) - height l ∧ getBalance r < 0 then
    rotate_left (.node rk (max (height l) (height r) + 1) l (rotate_right r))
  else .node rk (max (height l) (height r) + 1) l r

/-- Source function insert (avl.c): BST insertion by cmp (ties go right),
followed by the height update and rebalance of `insertStep`.  The
inserted node has height 1 and null children, as every caller in the
repository initializes it. -/
def insert : Tree → Key → Tree
  | .leaf, k => .node k 1 .leaf .leaf
  | .node rk _ l r, k =>
    if cmp k rk < 0 then insertStep rk (insert l k) r
    else insertStep rk l (insert r k)

/-- Source function minValue (avl.c): leftmost node of the tree.  The C
code dereferences a null pointer when called on an empty tree; that case
is unreachable at its unique call site and is given a dummy value. -/
def minValue : Tree → Key
  | .leaf => (0, 0)
  | .node k _ .leaf _ => k
  | .node _ _ (.node a b c d) _ => minValue (.node a b c d)

/-- The tail of source function delete (avl.c) after the removal: update
the height of the root and apply the rebalancing case split exactly as
written (the non-strict comparisons on the child balance). -/
def deleteStep (rk : Key) (l r : Tree) : Tree :=
  if (height r : Int) - height l < -1 ∧ getBalance l ≤ 0 then
    rotate_right (.node rk (max (height l) (height r) + 1) l r)
  else if 1 < (height r : Int) - height l ∧ 0 ≤ getBalance r then
    rotate_left (.node rk (max (height l) (height r) + 1) l r)
  else if (height r : Int) - height l < -1 ∧ 0 < getBalance l then
    rotate_right (.node rk (max (height l) (height r) + 1) (rotate_left l) r)
  else if 1 < (height r : Int) - height l ∧ getBalance r < 0 then
    rotate_left (.node rk (max (height l) (height r) + 1) l (rotate_right r))
  else .node rk (max (height l) (height r) + 1) l r

/-- Height update and rebalance applied to a whole node (the path of
source delete where root was replaced by its single child and then falls
through to the update; the null result returns early). -/
def deleteStepT : Tree → Tree
  | .leaf => .leaf
  | .node rk _ l r => deleteStep rk l r

/-- Source function delete (avl.c): BST removal by cmp key match.  A node
with fewer than two children is replaced by its child (or removed); a
node with two children is replaced by the minimum of the right subtree,
detached from the post-deletion right subtree first, exactly as the
source does.  Heights are updated and the tree rebalanced on unwind. -/
def delete : Tree → Key → Tree
  | .leaf, _ => .leaf
  | .node rk _ l r, k =>
    if cmp k rk < 0 then deleteStep rk (delete l k) r
    else if 0 < cmp k rk then deleteStep rk l (delete r k)
    else
      match l, r with
      | .leaf, rr => deleteStepT rr
      | .node a b c d, .leaf => deleteStepT (.node a b c d)
      | .node _ _ _ _, .node _ _ _ _ =>
        let m := minValue r
        deleteStep m l (delete r m)

/-- Loop body of source function best_fit (avl.c), with the running best
candidate made explicit. -/
def best_fitAux (best : Option Key) : Tree → Nat → Option Key
  | .leaf, _ => best
  | .node k _ l r, s =>
    if s ≤ k.1 then best_fitAux (some k) l s else best_fitAux best r s

/-- Source function best_fit (avl.c): smallest block whose size is at
least the requested size, or null. -/
def best_fit (t : Tree) (s : Nat) : Option Key := best_fitAux none t s

/-- Source function pop_best_fit (avl.c): best_fit followed by delete of
the found node; returns the found node and the new root. -/
def pop_best_fit (t : Tree) (s : Nat) : Option Key × Tree :=
  match best_fit t s with
  | some b => (some b, delete t b)
  | none => (none, t)

/-- In-order traversal of the index: the key sequence in BST order. -/
def inorder : Tree → List Key
  | .leaf => []
  | .node k _ l r => inorder l ++ k :: inorder r

/-- Strict order on keys: lexicographic on (size, address), matching a
negative result of cmp. -/
def keyLt (a b : Key) : Prop := a.1 < b.1 ∨ (a.1 = b.1 ∧ a.2 < b.2)

instance : DecidablePred (fun p : Key × Key => keyLt p.1 p.2) := by
  intro p; unfold keyLt; infer_instance

instance (a b : Key) : Decidable (keyLt a b) := by
  unfold keyLt; infer_instance

/-- Every key of the tree satisfies the predicate. -/
def AllKeys (p : Key → Prop) : Tree → Prop
  | .leaf => True
  | .node k _ l r => p k ∧ AllKeys p l ∧ AllKeys p r

/-- The binary-search-tree ordering invariant on (size, address) keys. -/
def Ordered : Tree → Prop
  | .leaf => True
  | .node k _ l r =>
    AllKeys (fun x => keyLt x k) l ∧ AllKeys (fun x => keyLt k x) r ∧
      Ordered l ∧ Ordered r

/-- Cached heights are correct: each stored height equals one plus the
maximum of the children heights. -/
def HtOk : Tree → Prop
  | .leaf => True
  | .node _ h l r => HtOk l ∧ HtOk r ∧ h = max (height l) (height r) + 1

/-- AVL balance: the balance factor is within one at every node. -/
def Bal : Tree → Prop
  | .leaf => True
  | .node _ _ l r =>
    Bal l ∧ Bal r ∧ (height l : Int) - height r ≤ 1 ∧ (height r : Int) - height l ≤ 1

def decAllKeys (p : Key → Prop) [DecidablePred p] : (t : Tree) → Decidable (AllKeys p t)
  | .leaf => isTrue trivial
  | .node k _ l r =>
    haveI := decAllKeys p l
    haveI := decAllKeys p r
    inferInstanceAs (Decidable (p k ∧ AllKeys p l ∧ AllKeys p r))

attribute [instance] decAllKeys

def decOrdered : (t : Tree) → Decidable (Ordered t)
  | .leaf => isTrue trivial
  | .node k _ l r =>
    haveI := decOrdered l
    haveI := decOrdered r
    inferInstanceAs (Decidable (_ ∧ _ ∧ Ordered l ∧ Ordered r))

attribute [instance] decOrdered

def decHtOk : (t : Tree) → Decidable (HtOk t)
  | .leaf => isTrue trivial
  | .node _ h l r =>
    haveI := decHtOk l
    haveI := decHtOk r
    inferInstanceAs (Decidable (HtOk l ∧ HtOk r ∧ h = max (height l) (height r) + 1))

attribute [instance] decHtOk

def decBal : (t : Tree) → Decidable (Bal t)
  | .leaf => isTrue trivial
  | .node _ _ l r =>
    haveI := decBal l
    haveI := decBal r
    inferInstanceAs (Decidable (Bal l ∧ Bal r ∧ _ ∧ _))

attribute [instance] decBal

/-! Heap layer: the heap is the ordered sequence of boundary-tagged
blocks between the watermarks.  Each block is represented by its tag
content (size and alloc bit, identical in header and footer per the tag
invariant the code maintains) together with its payload bytes.  Pointer
arithmetic over tags (get_next, get_prev, get_ftrp) becomes navigation
between adjacent blocks of the sequence; the out-of-range read that
get_prev performs for the very first block is treated separately (claim
C8).  sbrk is modelled as granting memory while the break stays at most
brkLimit, with fresh pages zero-filled. -/

/-- The modulus of size_t arithmetic. -/
def U64 : Nat := 2 ^ 64

/-- Constant ALIGN (malloc.h). -/
def ALIGN : Nat := 16

/-- Macro ALIGN_UP (malloc.h): (x + 15) & ~15 in size_t arithmetic. -/
def ALIGN_UP (x : Nat) : Nat := ((x + (ALIGN - 1)) % U64) / ALIGN * ALIGN

/-- Constant HEADER_SIZE = sizeof(size_t) (malloc.h). -/
def HEADER_SIZE : Nat := 8

/-- Constant FOOTER_SIZE = sizeof(size_t) (malloc.h). -/
def FOOTER_SIZE : Nat := 8

/-- sizeof(struct free_block): size_t size, int height with padding, two
pointers, on the 64-bit layout the repository targets. -/
def SIZEOF_FREE_BLOCK : Nat := 32

/-- Macro MIN_PAYLOAD_SIZE (malloc.h). -/
def MIN_PAYLOAD_SIZE : Nat := ALIGN_UP SIZEOF_FREE_BLOCK

/-- Macro MIN_BLOCK_SIZE (malloc.h). -/
def MIN_BLOCK_SIZE : Nat := ALIGN_UP (HEADER_SIZE + FOOTER_SIZE + MIN_PAYLOAD_SIZE)

/-- One boundary-tagged block: total size, alloc bit, payload bytes. -/
structure Block where
  bsize : Nat
  balloc : Bool
  bdata : List Nat
deriving Repr, DecidableEq

/-- Allocator state: heap base watermark, block sequence, index root and
the model of the OS break limit. -/
structure Heap where
  lo : Nat
  blocks : List Block
  root : Tree
  brkLimit : Nat
deriving Repr, DecidableEq

/-- Sum of the block sizes. -/
def sizeSum (bs : List Block) : Nat := (bs.map Block.bsize).sum

/-- The high watermark heap_hi (malloc.c). -/
def heapHi (h : Heap) : Nat := h.lo + sizeSum h.blocks

/-- Finds the block whose payload pointer is p, returning the blocks
before it, the block, and the blocks after it.  This is the inverse of
the tag arithmetic by which the source reaches a block from a payload
pointer. -/
def locate (lo : Nat) : List Block → Nat → Option (List Block × Block × List Block)
  | [], _ => none
  | b :: bs, p =>
    if lo + HEADER_SIZE = p then some ([], b, bs)
    else
      match locate (lo + b.bsize) bs p with
      | some (pre, c, post) => some (b :: pre, c, post)
      | none => none

/-- Little-endian bytes of a 64-bit word. -/
def le8 (v : Nat) : List Nat :=
  [v % 256, v / 2 ^ 8 % 256, v / 2 ^ 16 % 256, v / 2 ^ 24 % 256,
   v / 2 ^ 32 % 256, v / 2 ^ 40 % 256, v / 2 ^ 48 % 256, v / 2 ^ 56 % 256]

/-- Little-endian bytes of a 32-bit int. -/
def le4 (v : Nat) : List Nat := [v % 256, v / 2 ^ 8 % 256, v / 2 ^ 16 % 256, v / 2 ^ 24 % 256]

/-- The free_block record the facade writes at the start of a free
payload: the size field (8 bytes), height = 1 (4 bytes; the 4 padding
bytes after it are not written), and two null child pointers.  The
rebalancing writes the index performs inside free payloads later are
abstracted by the functional tree; no claim reads those bytes. -/
def writeNode (sz : Nat) (data : List Nat) : List Nat :=
  le8 sz ++ le4 1 ++ (data.drop 12).take 4 ++ le8 0 ++ le8 0 ++ data.drop 32

/-- Source function allocate_heap (malloc.c): extend the break, record
the watermarks, tag one allocated block of the full size and return its
payload pointer.  On sbrk failure nothing changes and null is returned. -/
def allocate_heap (h : Heap) (size : Nat) : Heap × Option Nat :=
  if heapHi h + size ≤ h.brkLimit then
    ({ h with blocks := h.blocks ++
        [⟨size, true, List.replicate (size - (HEADER_SIZE + FOOTER_SIZE)) 0⟩] },
      some (heapHi h + HEADER_SIZE))
  else (h, none)

/-- Source function split_block (malloc.c), acting on the located free
block at payload pointer p: tag the first size bytes allocated, tag the
remainder free, initialize a node record in the remainder payload and
insert it into the index. -/
def split_block (h : Heap) (pre : List Block) (b : Block) (post : List Block)
    (p freeSize size : Nat) : Heap × Option Nat :=
  ({ h with
      blocks := pre ++ ⟨size, true, b.bdata.take (size - (HEADER_SIZE + FOOTER_SIZE))⟩ ::
        ⟨freeSize - size, false, writeNode (freeSize - size) (b.bdata.drop size)⟩ :: post,
      root := insert h.root (freeSize - size, p + size) },
    some p)

/-- The block size my_malloc computes for a request: header plus footer
plus payload, rounded up for alignment in size_t arithmetic and raised
to the minimum block size. -/
def blockSizeReq (size : Nat) : Nat :=
  max MIN_BLOCK_SIZE (ALIGN_UP ((HEADER_SIZE + FOOTER_SIZE + size) % U64))

/-- Source function my_malloc (malloc.c): round the request up to the
block size, pop the best fit, and either extend the heap, split the
found block, or take it whole.  The locate failure case is unreachable
when the index matches the heap (the source would write through a
dangling node pointer there). -/
def my_malloc (h : Heap) (size : Nat) : Heap × Option Nat :=
  match pop_best_fit h.root (blockSizeReq size) with
  | (none, _) => allocate_heap h (blockSizeReq size)
  | (some bkey, root2) =>
    match locate h.lo h.blocks bkey.2 with
    | none => ({ h with root := root2 }, none)
    | some (pre, b, post) =>
      if MIN_BLOCK_SIZE ≤ bkey.1 - blockSizeReq size then
        split_block { h with root := root2 } pre b post bkey.2 bkey.1 (blockSizeReq size)
      else
        ({ h with root := root2, blocks := pre ++ ⟨bkey.1, true, b.bdata⟩ :: post },
          some bkey.2)

/-- Guarded free test of the block before the located one, as the
coalescing code intends it (prev exists and its alloc bit is clear). -/
def prev_free_chk (pre : List Block) : Bool :=
  match pre.getLast? with
  | some pb => !pb.balloc
  | none => false

/-- Guarded free test of the block after the located one. -/
def next_free_chk (post : List Block) : Bool :=
  match post.head? with
  | some nb => !nb.balloc
  | none => false

/-- The last block of the prefix (the previous neighbor); only consulted
when prev_free_chk holds. -/
def lastD (pre : List Block) : Block := (pre.getLast?).getD ⟨0, true, []⟩

/-- The first block of the suffix (the next neighbor); only consulted
when next_free_chk holds. -/
def headD (post : List Block) : Block := (post.head?).getD ⟨0, true, []⟩

/-- Source function merge_blocks (free.c) on the located block: the four
cases on (prev_free, next_free) in source order.  Each merge removes the
absorbed neighbor from the index (the node key is its size and payload
pointer, which under invariant 4 is what cmp reads from the node record)
and rewrites the boundary tags; the old interior tag words remain as
stale payload bytes.  Returns the heap, the location of the merged
block, and its payload pointer. -/
def merge_blocks (h : Heap) (pre : List Block) (b : Block) (post : List Block) (p : Nat) :
    Heap × (List Block × Block × List Block) × Nat :=
  if !prev_free_chk pre && !next_free_chk post then
    (h, (pre, b, post), p)
  else if prev_free_chk pre && !next_free_chk post then
    let pb := lastD pre
    ({ h with
        blocks := pre.dropLast ++
          ⟨pb.bsize + b.bsize, false, pb.bdata ++ le8 pb.bsize ++ le8 b.bsize ++ b.bdata⟩ :: post,
        root := delete h.root (pb.bsize, p - pb.bsize) },
      (pre.dropLast,
        ⟨pb.bsize + b.bsize, false, pb.bdata ++ le8 pb.bsize ++ le8 b.bsize ++ b.bdata⟩, post),
      p - pb.bsize)
  else if next_free_chk post && !prev_free_chk pre then
    let nb := headD post
    ({ h with
        blocks := pre ++
          ⟨b.bsize + nb.bsize, false, b.bdata ++ le8 b.bsize ++ le8 nb.bsize ++ nb.bdata⟩ ::
            post.tail,
        root := delete h.root (nb.bsize, p + b.bsize) },
      (pre, ⟨b.bsize + nb.bsize, false, b.bdata ++ le8 b.bsize ++ le8 nb.bsize ++ nb.bdata⟩,
        post.tail),
      p)
  else
    let pb := lastD pre
    let nb := headD post
    ({ h with
        blocks := pre.dropLast ++
          ⟨pb.bsize + b.bsize + nb.bsize, false,
            pb.bdata ++ le8 pb.bsize ++ le8 b.bsize ++ b.bdata ++
              le8 b.bsize ++ le8 nb.bsize ++ nb.bdata⟩ :: post.tail,
        root := delete (delete h.root (pb.bsize, p - pb.bsize)) (nb.bsize, p + b.bsize) },
      (pre.dropLast,
        ⟨pb.bsize + b.bsize + nb.bsize, false,
          pb.bdata ++ le8 pb.bsize ++ le8 b.bsize ++ b.bdata ++
            le8 b.bsize ++ le8 nb.bsize ++ nb.bdata⟩, post.tail),
      p - pb.bsize)

/-- Source function my_free (free.c): clear the alloc bit in header and
footer, coalesce with free neighbors, write a fresh node record at the
merged payload and insert it into the index.  Freeing a pointer that is
not a payload pointer of the heap is undefined behavior in the source
and a no-op here; the reachability relation only admits valid frees. -/
def my_free (h : Heap) (p : Nat) : Heap :=
  if p = 0 then h
  else
    match locate h.lo h.blocks p with
    | none => h
    | some (pre, b, post) =>
      match merge_blocks { h with blocks := pre ++ ⟨b.bsize, false, b.bdata⟩ :: post }
          pre ⟨b.bsize, false, b.bdata⟩ post p with
      | (h2, (pre2, mb, post2), q) =>
        { h2 with
            blocks := pre2 ++ ⟨mb.bsize, mb.balloc, writeNode mb.bsize mb.bdata⟩ :: post2,
            root := insert h2.root (mb.bsize, q) }

/-- Write of the first bytes of the block at payload pointer q (memcpy in
the grow path of my_realloc). -/
def memcpyBlock (h : Heap) (q : Nat) (src : List Nat) : Heap :=
  match locate h.lo h.blocks q with
  | none => h
  | some (pre, c, post) =>
    { h with blocks := pre ++ ⟨c.bsize, c.balloc, src ++ c.bdata.drop src.length⟩ :: post }

/-- Zeroing of the first n payload bytes of the block at payload pointer
p (memset in my_calloc); bytes past the block are outside the model. -/
def memsetBlock (h : Heap) (p n : Nat) : Heap :=
  match locate h.lo h.blocks p with
  | none => h
  | some (pre, c, post) =>
    { h with blocks := pre ++
        ⟨c.bsize, c.balloc, (List.replicate n 0 ++ c.bdata.drop n).take c.bdata.length⟩ :: post }

/-- Source function my_realloc (realloc.c). -/
def my_realloc (h : Heap) (p new_payload : Nat) : Heap × Option Nat :=
  if p = 0 then my_malloc h new_payload
  else if new_payload = 0 then (my_free h p, none)
  else
    match locate h.lo h.blocks p with
    | none => (h, none)
    | some (pre, b, post) =>
      if max MIN_BLOCK_SIZE (ALIGN_UP ((new_payload + HEADER_SIZE + FOOTER_SIZE) % U64)) ≤
          b.bsize then
        if b.bsize -
            max MIN_BLOCK_SIZE (ALIGN_UP ((new_payload + HEADER_SIZE + FOOTER_SIZE) % U64)) <
            MIN_BLOCK_SIZE then
          (h, some p)
        else
          (my_free
            { h with blocks := pre ++
                ⟨max MIN_BLOCK_SIZE (ALIGN_UP ((new_payload + HEADER_SIZE + FOOTER_SIZE) % U64)),
                  true,
                  b.bdata.take
                    (max MIN_BLOCK_SIZE (ALIGN_UP ((new_payload + HEADER_SIZE + FOOTER_SIZE) % U64))
                      - (HEADER_SIZE + FOOTER_SIZE))⟩ ::
                ⟨b.bsize -
                    max MIN_BLOCK_SIZE (ALIGN_UP ((new_payload + HEADER_SIZE + FOOTER_SIZE) % U64)),
                  false,
                  b.bdata.drop
                    (max MIN_BLOCK_SIZE
                      (ALIGN_UP ((new_payload + HEADER_SIZE + FOOTER_SIZE) % U64)))⟩ :: post }
            (p + max MIN_BLOCK_SIZE (ALIGN_UP ((new_payload + HEADER_SIZE + FOOTER_SIZE) % U64))),
          some p)
      else
        match my_malloc h new_payload with
        | (h1, none) => (h1, none)
        | (h1, some q) =>
          (my_free
            (memcpyBlock h1 q
              (b.bdata.take (if new_payload < b.bsize - (HEADER_SIZE + FOOTER_SIZE) then
                new_payload else b.bsize - (HEADER_SIZE + FOOTER_SIZE)))) p,
            some q)

/-- Source function my_calloc (free.c): zero and overflow guards, then
malloc and memset of the product. -/
def my_calloc (h : Heap) (nitems size : Nat) : Heap × Option Nat :=
  if nitems = 0 ∨ size = 0 then (h, none)
  else if (U64 - 1) / size < nitems then (h, none)
  else
    match my_malloc h (nitems * size % U64) with
    | (h1, none) => (h1, none)
    | (h1, some b) => (memsetBlock h1 b (nitems * size % U64), some b)

/-- One facade call. -/
inductive Op where
  | malloc (n : Nat)
  | free (p : Nat)
  | realloc (p n : Nat)
  | calloc (k n : Nat)
deriving Repr, DecidableEq

/-- The state after one facade call. -/
def stepOp (h : Heap) : Op → Heap
  | .malloc n => (my_malloc h n).1
  | .free p => my_free h p
  | .realloc p n => (my_realloc h p n).1
  | .calloc k n => (my_calloc h k n).1

/-- The empty initial state: no extension has happened yet. -/
def initHeap (lo brkLimit : Nat) : Heap := ⟨lo, [], .leaf, brkLimit⟩

/-- Validity of a call per the interface contract (section 6 of the
spec): free and realloc take null or a pointer previously returned and
still allocated; misuse is undefined behavior and excluded. -/
def validOp (h : Heap) : Op → Bool
  | .malloc _ => true
  | .free p =>
    p = 0 ||
      (match locate h.lo h.blocks p with
        | some (_, b, _) => b.balloc
        | none => false)
  | .realloc p _ =>
    p = 0 ||
      (match locate h.lo h.blocks p with
        | some (_, b, _) => b.balloc
        | none => false)
  | .calloc _ _ => true

/-- States reachable from an initial state by valid facade calls. -/
inductive Reachable : Heap → Prop where
  | base (lo limit : Nat) : Reachable (initHeap lo limit)
  | next (h : Heap) (op : Op) : Reachable h → validOp h op = true → Reachable (stepOp h op)

/-- The free-block entries of the block sequence starting at address a:
for every free block, its key (size, payload pointer). -/
def entriesAux (a : Nat) : List Block → List Key
  | [] => []
  | b :: bs =>
    (if b.balloc then [] else [(b.bsize, a + HEADER_SIZE)]) ++ entriesAux (a + b.bsize) bs

/-- The free-block entries of the heap. -/
def freeEntries (h : Heap) : List Key := entriesAux h.lo h.blocks

/-- Block well-formedness: at least the minimum block size, aligned, and
the payload holds exactly size minus the two tag words. -/
def sizesOk (bs : List Block) : Prop :=
  ∀ b ∈ bs, MIN_BLOCK_SIZE ≤ b.bsize ∧ b.bsize % ALIGN = 0 ∧
    b.bdata.length = b.bsize - (HEADER_SIZE + FOOTER_SIZE)

/-- Two adjacent blocks are never both free. -/
def adjOk (x y : Block) : Prop := x.balloc = true ∨ y.balloc = true

/-- The coalescing invariant over the block sequence. -/
def noAdjFree (bs : List Block) : Prop := List.Chain' adjOk bs

/-- The index holds exactly the keys of the free blocks. -/
def treeMatches (h : Heap) : Prop :=
  (∀ k ∈ inorder h.root, k ∈ freeEntries h) ∧ ∀ k ∈ freeEntries h, k ∈ inorder h.root

/-- The state invariant tying tags and index together. -/
def Inv (h : Heap) : Prop :=
  sizesOk h.blocks ∧ noAdjFree h.blocks ∧ Ordered h.root ∧ treeMatches h

def decAdjOk (x y : Block) : Decidable (adjOk x y) :=
  inferInstanceAs (Decidable (_ ∨ _))

attribute [instance] decAdjOk

def decSizesOk (bs : List Block) : Decidable (sizesOk bs) :=
  inferInstanceAs (Decidable (∀ b ∈ bs, MIN_BLOCK_SIZE ≤ b.bsize ∧ b.bsize % ALIGN = 0 ∧
    b.bdata.length = b.bsize - (HEADER_SIZE + FOOTER_SIZE)))

attribute [instance] decSizesOk

def decNoAdjFree : (bs : List Block) → Decidable (noAdjFree bs)
  | [] => isTrue List.chain'_nil
  | [x] => isTrue (List.chain'_singleton x)
  | x :: y :: rest =>
    haveI : Decidable (noAdjFree (y :: rest)) := decNoAdjFree (y :: rest)
    decidable_of_iff (adjOk x y ∧ noAdjFree (y :: rest)) List.chain'_cons.symm

attribute [instance] decNoAdjFree

def decTreeMatches (h : Heap) : Decidable (treeMatches h) :=
  inferInstanceAs (Decidable ((∀ k ∈ inorder h.root, k ∈ freeEntries h) ∧
    ∀ k ∈ freeEntries h, k ∈ inorder h.root))

attribute [instance] decTreeMatches

def decInv (h : Heap) : Decidable (Inv h) :=
  inferInstanceAs (Decidable (sizesOk h.blocks ∧ noAdjFree h.blocks ∧ Ordered h.root ∧
    treeMatches h))

attribute [instance] decInv

/-- Source function in_heap (free.c): lo ≤ ptr < hi, on integer
addresses so that positions below the heap base are expressible. -/
def in_heap (lo hi : Nat) (p : Int) : Prop := (lo : Int) ≤ p ∧ p < (hi : Int)

/-- The address of the word read by get_prev (malloc.h): the footer of
the previous block, at data minus HEADER_SIZE minus FOOTER_SIZE,
computed in the integers to expose reads below the heap base. -/
def get_prev_read_addr (p : Nat) : Int := (p : Int) - HEADER_SIZE - FOOTER_SIZE

/-- A guarded word read over [lo, hi): some payload offset when all
eight bytes lie inside the heap, none when the read is out of range. -/
def readWordGuarded (lo hi : Nat) (a : Int) : Option Nat :=
  if (lo : Int) ≤ a ∧ a + 8 ≤ (hi : Int) then some (a - lo).toNat else none

/-- The first memory access merge_blocks performs on a payload pointer:
the read of the previous footer inside get_prev, under the guarded-read
discipline. -/
def merge_blocks_prev_read (h : Heap) (p : Nat) : Option Nat :=
  readWordGuarded h.lo (heapHi h) (get_prev_read_addr p)

theorem keyLt_irrefl (a : Key) : ¬ keyLt a a := by
  simp [keyLt]

theorem keyLt_trans {a b c : Key} (h1 : keyLt a b) (h2 : keyLt b c) : keyLt a c := by
  rcases h1 with h1 | ⟨h1, h1a⟩ <;> rcases h2 with h2 | ⟨h2, h2a⟩ <;>
    simp_all [keyLt] <;> omega

theorem keyLt_asymm {a b : Key} (h1 : keyLt a b) (h2 : keyLt b a) : False :=
  keyLt_irrefl a (keyLt_trans h1 h2)

theorem cmp_lt_iff {a b : Key} : cmp a b < 0 ↔ keyLt a b := by
  unfold cmp keyLt
  rcases a with ⟨a1, a2⟩; rcases b with ⟨b1, b2⟩
  by_cases h1 : a1 < b1 <;> by_cases h2 : b1 < a1 <;>
    by_cases h3 : a2 < b2 <;> by_cases h4 : b2 < a2 <;> simp_all <;> omega

theorem cmp_nonneg_iff {a b : Key} : ¬ cmp a b < 0 ↔ (a = b ∨ keyLt b a) := by
  unfold cmp keyLt
  rcases a with ⟨a1, a2⟩; rcases b with ⟨b1, b2⟩
  by_cases h1 : a1 < b1 <;> by_cases h2 : b1 < a1 <;>
    by_cases h3 : a2 < b2 <;> by_cases h4 : b2 < a2 <;>
      simp_all [Prod.ext_iff] <;> omega

theorem cmp_pos_iff {a b : Key} : 0 < cmp a b ↔ keyLt b a := by
  unfold cmp keyLt
  rcases a with ⟨a1, a2⟩; rcases b with ⟨b1, b2⟩
  by_cases h1 : a1 < b1 <;> by_cases h2 : b1 < a1 <;>
    by_cases h3 : a2 < b2 <;> by_cases h4 : b2 < a2 <;> simp_all <;> omega

theorem allKeys_iff {p : Key → Prop} : ∀ {t : Tree}, AllKeys p t ↔ ∀ x ∈ inorder t, p x
  | .leaf => by simp [AllKeys, inorder]
  | .node k h l r => by
    simp only [AllKeys, inorder, List.mem_append, List.mem_cons]
    rw [@allKeys_iff _ l, @allKeys_iff _ r]
    constructor
    · rintro ⟨hk, hl, hr⟩ x (hx | hx | hx)
      · exact hl x hx
      · exact hx ▸ hk
      · exact hr x hx
    · intro hall
      exact ⟨hall k (Or.inr (Or.inl rfl)), fun x hx => hall x (Or.inl hx),
        fun x hx => hall x (Or.inr (Or.inr hx))⟩

theorem inorder_rotate_left (t : Tree) : inorder (rotate_left t) = inorder t := by
  match t with
  | .leaf => rfl
  | .node k h l .leaf => rfl
  | .node k h l (.node rk rh rl rr) => simp [rotate_left, inorder]

theorem inorder_rotate_right (t : Tree) : inorder (rotate_right t) = inorder t := by
  match t with
  | .leaf => rfl
  | .node k h .leaf r => rfl
  | .node k h (.node lk lh ll lr) r => simp [rotate_right, inorder]

theorem inorder_insertStep (rk : Key) (l r : Tree) :
    inorder (insertStep rk l r) = inorder l ++ rk :: inorder r := by
  unfold insertStep
  split
  · rw [inorder_rotate_right]; rfl
  split
  · rw [inorder_rotate_left]; rfl
  split
  · rw [inorder_rotate_right]; simp [inorder, inorder_rotate_left]
  split
  · rw [inorder_rotate_left]; simp [inorder, inorder_rotate_right]
  rfl

theorem inorder_deleteStep (rk : Key) (l r : Tree) :
    inorder (deleteStep rk l r) = inorder l ++ rk :: inorder r := by
  unfold deleteStep
  split
  · rw [inorder_rotate_right]; rfl
  split
  · rw [inorder_rotate_left]; rfl
  split
  · rw [inorder_rotate_right]; simp [inorder, inorder_rotate_left]
  split
  · rw [inorder_rotate_left]; simp [inorder, inorder_rotate_right]
  rfl

theorem inorder_deleteStepT (t : Tree) : inorder (deleteStepT t) = inorder t := by
  match t with
  | .leaf => rfl
  | .node rk rh l r => simp [deleteStepT, inorder_deleteStep, inorder]

theorem inorder_insert (t : Tree) (k : Key) :
    ∀ x, x ∈ inorder (insert t k) ↔ x = k ∨ x ∈ inorder t := by
  induction t with
  | leaf => intro x; simp [insert, inorder]
  | node rk rh l r ihl ihr =>
    intro x
    simp only [insert]
    split
    · rw [inorder_insertStep]
      simp only [inorder, List.mem_append, List.mem_cons, ihl x]
      tauto
    · rw [inorder_insertStep]
      simp only [inorder, List.mem_append, List.mem_cons, ihr x]
      tauto

theorem ordered_iff_pairwise : ∀ {t : Tree}, Ordered t ↔ (inorder t).Pairwise keyLt
  | .leaf => by simp [Ordered, inorder]
  | .node k h l r => by
    simp only [Ordered, inorder, List.pairwise_append, List.pairwise_cons,
      allKeys_iff, List.mem_cons]
    rw [@ordered_iff_pairwise l, @ordered_iff_pairwise r]
    constructor
    · rintro ⟨hl, hr, pl, pr⟩
      refine ⟨pl, ⟨fun y hy => hr y hy, pr⟩, ?_⟩
      rintro a ha b (rfl | hb)
      · exact hl a ha
      · exact keyLt_trans (hl a ha) (hr b hb)
    · rintro ⟨pl, ⟨hr, pr⟩, hcross⟩
      exact ⟨fun x hx => hcross x hx k (Or.inl rfl), hr, pl, pr⟩

theorem ordered_insertStep {rk : Key} {l r : Tree}
    (h : Ordered (.node rk 0 l r)) : Ordered (insertStep rk l r) := by
  rw [ordered_iff_pairwise] at h ⊢
  rw [inorder_insertStep]
  simpa [inorder] using h

theorem ordered_deleteStep {rk : Key} {l r : Tree}
    (h : Ordered (.node rk 0 l r)) : Ordered (deleteStep rk l r) := by
  rw [ordered_iff_pairwise] at h ⊢
  rw [inorder_deleteStep]
  simpa [inorder] using h

theorem allKeys_insert {p : Key → Prop} {t : Tree} {k : Key}
    (hk : p k) (h : AllKeys p t) : AllKeys p (insert t k) := by
  rw [allKeys_iff] at h ⊢
  intro x hx
  rcases (inorder_insert t k x).mp hx with rfl | hx
  · exact hk
  · exact h x hx

theorem ordered_insert {t : Tree} {k : Key} (hord : Ordered t)
    (hfresh : k ∉ inorder t) : Ordered (insert t k) := by
  induction t with
  | leaf => simp [insert, Ordered, AllKeys]
  | node rk rh l r ihl ihr =>
    obtain ⟨hal, har, hol, hor⟩ := hord
    simp only [inorder, List.mem_append, List.mem_cons] at hfresh
    push_neg at hfresh
    obtain ⟨hfl, hne, hfr⟩ := hfresh
    simp only [insert]
    split
    · rename_i hcmp
      exact ordered_insertStep
        ⟨allKeys_insert (cmp_lt_iff.mp hcmp) hal, har, ihl hol hfl, hor⟩
    · rename_i hcmp
      have hgt : keyLt rk k := by
        rcases cmp_nonneg_iff.mp hcmp with rfl | h
        · exact absurd rfl hne
        · exact h
      exact ordered_insertStep ⟨hal, allKeys_insert hgt har, hol, ihr hor hfr⟩

theorem minValue_head : ∀ (t : Tree), t ≠ .leaf →
    ∃ rest, inorder t = minValue t :: rest
  | .leaf, h => absurd rfl h
  | .node k hh .leaf r, _ => ⟨inorder r, by simp [inorder, minValue]⟩
  | .node k hh (.node a b c d) r, _ => by
    obtain ⟨rest, hrest⟩ := minValue_head (.node a b c d) (by simp)
    refine ⟨rest ++ k :: inorder r, ?_⟩
    show inorder (.node a b c d) ++ k :: inorder r = _
    rw [hrest]
    simp [minValue]

theorem keyLt_ne {a b : Key} (h : keyLt a b) : a ≠ b := by
  rintro rfl; exact keyLt_irrefl a h

theorem delete_lt {rk k : Key} {rh : Nat} {l r : Tree} (hcmp : cmp k rk < 0) :
    delete (.node rk rh l r) k = deleteStep rk (delete l k) r := by
  simp [delete, hcmp]

theorem delete_gt {rk k : Key} {rh : Nat} {l r : Tree} (hcmp : 0 < cmp k rk) :
    delete (.node rk rh l r) k = deleteStep rk l (delete r k) := by
  have : ¬ cmp k rk < 0 := by omega
  simp [delete, this, hcmp]

theorem delete_eq_left_leaf {rk k : Key} {rh : Nat} {r : Tree}
    (h1 : ¬ cmp k rk < 0) (h2 : ¬ 0 < cmp k rk) :
    delete (.node rk rh .leaf r) k = deleteStepT r := by
  cases r <;> simp [delete, h1, h2]

theorem delete_eq_right_leaf {rk k : Key} {rh : Nat} {a : Key} {b : Nat} {c d : Tree}
    (h1 : ¬ cmp k rk < 0) (h2 : ¬ 0 < cmp k rk) :
    delete (.node rk rh (.node a b c d) .leaf) k = deleteStepT (.node a b c d) := by
  simp [delete, h1, h2]

theorem delete_eq_two {rk k : Key} {rh : Nat} {a a2 : Key} {b b2 : Nat}
    {c d c2 d2 : Tree} (h1 : ¬ cmp k rk < 0) (h2 : ¬ 0 < cmp k rk) :
    delete (.node rk rh (.node a b c d) (.node a2 b2 c2 d2)) k =
      deleteStep (minValue (.node a2 b2 c2 d2)) (.node a b c d)
        (delete (.node a2 b2 c2 d2) (minValue (.node a2 b2 c2 d2))) := by
  simp [delete, h1, h2]

theorem cmp_eq_of_not_lt_gt {a b : Key} (h1 : ¬ cmp a b < 0) (h2 : ¬ 0 < cmp a b) :
    a = b := by
  rcases cmp_nonneg_iff.mp h1 with h | h
  · exact h
  · exact absurd (cmp_pos_iff.mpr h) h2

theorem inorder_delete : ∀ (t : Tree) (k : Key), Ordered t →
    inorder (delete t k) = (inorder t).erase k := by
  intro t
  induction t with
  | leaf => intro k _; simp [delete, inorder]
  | node rk rh l r ihl ihr =>
    intro k hord
    obtain ⟨hal, har, hol, hor⟩ := hord
    rw [allKeys_iff] at hal har
    by_cases hcmp : cmp k rk < 0
    · have hklt : keyLt k rk := cmp_lt_iff.mp hcmp
      rw [delete_lt hcmp, inorder_deleteStep, ihl k hol]
      show _ = (inorder l ++ rk :: inorder r).erase k
      by_cases hmem : k ∈ inorder l
      · rw [List.erase_append_left _ hmem]
      · rw [List.erase_of_not_mem hmem, List.erase_append_right _ hmem,
          List.erase_cons_tail, List.erase_of_not_mem]
        · intro hmr
          exact keyLt_asymm hklt (har k hmr)
        · simp only [beq_iff_eq]
          exact fun h => keyLt_ne hklt h.symm
    · by_cases hcmp2 : 0 < cmp k rk
      · have hklt : keyLt rk k := cmp_pos_iff.mp hcmp2
        have hnl : k ∉ inorder l := fun hml =>
          keyLt_asymm hklt (hal k hml)
        rw [delete_gt hcmp2, inorder_deleteStep, ihr k hor]
        show _ = (inorder l ++ rk :: inorder r).erase k
        rw [List.erase_append_right _ hnl, List.erase_cons_tail]
        simp only [beq_iff_eq]
        exact fun h => keyLt_ne hklt h
      · have hkeq : k = rk := cmp_eq_of_not_lt_gt hcmp hcmp2
        subst hkeq
        have hnl : k ∉ inorder l := fun hml => keyLt_irrefl k (hal k hml)
        show _ = (inorder l ++ k :: inorder r).erase k
        rw [List.erase_append_right _ hnl, List.erase_cons_head]
        cases l with
        | leaf =>
          rw [delete_eq_left_leaf hcmp hcmp2, inorder_deleteStepT]
          simp [inorder]
        | node a b c d =>
          cases r with
          | leaf =>
            rw [delete_eq_right_leaf hcmp hcmp2, inorder_deleteStepT]
            simp [inorder]
          | node a2 b2 c2 d2 =>
            rw [delete_eq_two hcmp hcmp2, inorder_deleteStep,
              ihr (minValue (.node a2 b2 c2 d2)) hor]
            obtain ⟨rest, hrest⟩ := minValue_head (.node a2 b2 c2 d2) (by simp)
            rw [hrest, List.erase_cons_head]

theorem ordered_delete {t : Tree} {k : Key} (hord : Ordered t) :
    Ordered (delete t k) := by
  rw [ordered_iff_pairwise] at hord ⊢
  rw [inorder_delete t k (ordered_iff_pairwise.mpr hord)]
  exact hord.sublist (List.erase_sublist k _)

theorem nodup_inorder {t : Tree} (hord : Ordered t) : (inorder t).Nodup :=
  (ordered_iff_pairwise.mp hord).imp keyLt_ne

theorem mem_inorder_delete {t : Tree} {k x : Key} (hord : Ordered t) :
    x ∈ inorder (delete t k) ↔ x ∈ inorder t ∧ x ≠ k := by
  rw [inorder_delete t k hord, (nodup_inorder hord).mem_erase_iff]
  tauto

theorem best_fitAux_none {s : Nat} : ∀ (t : Tree) (acc : Option Key),
    (∀ k ∈ inorder t, k.1 < s) → best_fitAux acc t s = acc := by
  intro t
  induction t with
  | leaf => intro acc _; rfl
  | node k h l r ihl ihr =>
    intro acc hall
    simp only [inorder, List.mem_append, List.mem_cons] at hall
    have hk : k.1 < s := hall k (Or.inr (Or.inl rfl))
    simp only [best_fitAux, if_neg (by omega : ¬ s ≤ k.1)]
    exact ihr acc (fun x hx => hall x (Or.inr (Or.inr hx)))

theorem best_fitAux_spec {s : Nat} : ∀ (t : Tree) (acc : Option Key), Ordered t →
    best_fitAux acc t s = ((inorder t).find? (fun x => decide (s ≤ x.1))).or acc := by
  intro t
  induction t with
  | leaf => intro acc _; simp [best_fitAux, inorder]
  | node k h l r ihl ihr =>
    intro acc hord
    obtain ⟨hal, har, hol, hor⟩ := hord
    rw [allKeys_iff] at hal
    simp only [best_fitAux, inorder, List.find?_append]
    split
    · rename_i hk
      rw [ihl (some k) hol, List.find?_cons_of_pos _ (by simpa using hk)]
      cases List.find? (fun x => decide (s ≤ x.1)) (inorder l) <;> rfl
    · rename_i hk
      have hnone : List.find? (fun x => decide (s ≤ x.1)) (inorder l) = none := by
        rw [List.find?_eq_none]
        intro x hx
        have hxk := hal x hx
        simp only [decide_eq_true_eq, not_le]
        rcases hxk with h | ⟨h, _⟩ <;> omega
      rw [ihr acc hor, hnone, List.find?_cons_of_neg _ (by simpa using hk)]
      rfl

theorem best_fit_eq_find {t : Tree} {s : Nat} (hord : Ordered t) :
    best_fit t s = (inorder t).find? (fun x => decide (s ≤ x.1)) := by
  rw [best_fit, best_fitAux_spec t none hord, Option.or_none]

theorem find?_is_min {p : Key → Bool} : ∀ {L : List Key}, L.Pairwise keyLt →
    ∀ {b : Key}, L.find? p = some b → ∀ x ∈ L, p x = true → ¬ keyLt x b := by
  intro L
  induction L with
  | nil => intro _ b h; simp at h
  | cons a L ih =>
    intro hpw b hfind x hx hpx
    rw [List.pairwise_cons] at hpw
    by_cases hpa : p a
    · rw [List.find?_cons_of_pos _ hpa] at hfind
      injection hfind with hba
      subst hba
      rcases List.mem_cons.mp hx with rfl | hx
      · exact keyLt_irrefl x
      · exact fun hlt => keyLt_asymm hlt (hpw.1 x hx)
    · rw [List.find?_cons_of_neg _ hpa] at hfind
      rcases List.mem_cons.mp hx with rfl | hx
      · exact absurd hpx (by simpa using hpa)
      · exact ih hpw.2 hfind x hx hpx

theorem height_leaf : height .leaf = 0 := rfl

theorem height_node {k : Key} {h : Nat} {l r : Tree} : height (.node k h l r) = h := rfl

theorem getBalance_node {k : Key} {h : Nat} {l r : Tree} :
    getBalance (.node k h l r) = (height r : Int) - height l := rfl

theorem HtOk_node {k : Key} {h : Nat} {l r : Tree} :
    HtOk (.node k h l r) ↔ HtOk l ∧ HtOk r ∧ h = max (height l) (height r) + 1 :=
  Iff.rfl

theorem Bal_node {k : Key} {h : Nat} {l r : Tree} :
    Bal (.node k h l r) ↔ Bal l ∧ Bal r ∧
      (height l : Int) - height r ≤ 1 ∧ (height r : Int) - height l ≤ 1 :=
  Iff.rfl

theorem rotate_right_node {k lk : Key} {h lh : Nat} {ll lr r : Tree} :
    rotate_right (.node k h (.node lk lh ll lr) r) =
      .node lk (max (height ll) (max (height lr) (height r) + 1) + 1) ll
        (.node k (max (height lr) (height r) + 1) lr r) := rfl

theorem rotate_left_node {k rk : Key} {h rh : Nat} {l rl rr : Tree} :
    rotate_left (.node k h l (.node rk rh rl rr)) =
      .node rk (max (max (height l) (height rl) + 1) (height rr) + 1)
        (.node k (max (height l) (height rl) + 1) l rl) rr := rfl

theorem rotate_lr_node {k lk mk : Key} {h lh mh : Nat} {ll ml mr r : Tree} :
    rotate_right (.node k h (rotate_left (.node lk lh ll (.node mk mh ml mr))) r) =
      .node mk (max (max (height ll) (height ml) + 1) (max (height mr) (height r) + 1) + 1)
        (.node lk (max (height ll) (height ml) + 1) ll ml)
        (.node k (max (height mr) (height r) + 1) mr r) := rfl

theorem rotate_rl_node {k rk mk : Key} {h rh mh : Nat} {l ml mr rr : Tree} :
    rotate_left (.node k h l (rotate_right (.node rk rh (.node mk mh ml mr) rr))) =
      .node mk (max (max (height l) (height ml) + 1) (max (height mr) (height rr) + 1) + 1)
        (.node k (max (height l) (height ml) + 1) l ml)
        (.node rk (max (height mr) (height rr) + 1) mr rr) := rfl

theorem rotate_right_spec {k lk : Key} {h lh : Nat} {ll lr r : Tree}
    (hll : HtOk ll) (hlr : HtOk lr) (hr : HtOk r)
    (bll : Bal ll) (blr : Bal lr) (br : Bal r)
    (hlh : lh = max (height ll) (height lr) + 1)
    (hbal : (height lr : Int) - height ll ≤ 0)
    (hbal2 : (height ll : Int) - height lr ≤ 1)
    (hdiff : lh = height r + 2) :
    HtOk (rotate_right (.node k h (.node lk lh ll lr) r)) ∧
    Bal (rotate_right (.node k h (.node lk lh ll lr) r)) ∧
    (height (rotate_right (.node k h (.node lk lh ll lr) r)) = lh ∨
     height (rotate_right (.node k h (.node lk lh ll lr) r)) = lh + 1) ∧
    ((height lr : Int) - height ll < 0 →
      height (rotate_right (.node k h (.node lk lh ll lr) r)) = lh) := by
  rw [rotate_right_node]
  simp only [HtOk_node, Bal_node, height_node]
  exact ⟨⟨hll, ⟨hlr, hr, trivial⟩, trivial⟩,
    ⟨bll, ⟨blr, br, by omega, by omega⟩, by omega, by omega⟩,
    by omega, by omega⟩

theorem rotate_left_spec {k rk : Key} {h rh : Nat} {l rl rr : Tree}
    (hl : HtOk l) (hrl : HtOk rl) (hrr : HtOk rr)
    (bl : Bal l) (brl : Bal rl) (brr : Bal rr)
    (hrh : rh = max (height rl) (height rr) + 1)
    (hbal : 0 ≤ (height rr : Int) - height rl)
    (hbal2 : (height rr : Int) - height rl ≤ 1)
    (hdiff : rh = height l + 2) :
    HtOk (rotate_left (.node k h l (.node rk rh rl rr))) ∧
    Bal (rotate_left (.node k h l (.node rk rh rl rr))) ∧
    (height (rotate_left (.node k h l (.node rk rh rl rr))) = rh ∨
     height (rotate_left (.node k h l (.node rk rh rl rr))) = rh + 1) ∧
    (0 < (height rr : Int) - height rl →
      height (rotate_left (.node k h l (.node rk rh rl rr))) = rh) := by
  rw [rotate_left_node]
  simp only [HtOk_node, Bal_node, height_node]
  exact ⟨⟨⟨hl, hrl, trivial⟩, hrr, trivial⟩,
    ⟨⟨bl, brl, by omega, by omega⟩, brr, by omega, by omega⟩,
    by omega, by omega⟩

theorem rotate_lr_spec {k lk mk : Key} {h lh mh : Nat} {ll ml mr r : Tree}
    (hll : HtOk ll) (hml : HtOk ml) (hmr : HtOk mr) (hr : HtOk r)
    (bll : Bal ll) (bml : Bal ml) (bmr : Bal mr) (br : Bal r)
    (hlh : lh = max (height ll) mh + 1)
    (hmh : mh = max (height ml) (height mr) + 1)
    (hbalm1 : (height ml : Int) - height mr ≤ 1)
    (hbalm2 : (height mr : Int) - height ml ≤ 1)
    (hlbal : (mh : Int) = height ll + 1)
    (hdiff : lh = height r + 2) :
    HtOk (rotate_right (.node k h (rotate_left (.node lk lh ll (.node mk mh ml mr))) r)) ∧
    Bal (rotate_right (.node k h (rotate_left (.node lk lh ll (.node mk mh ml mr))) r)) ∧
    height (rotate_right (.node k h (rotate_left (.node lk lh ll (.node mk mh ml mr))) r)) = lh := by
  rw [rotate_lr_node]
  simp only [HtOk_node, Bal_node, height_node]
  exact ⟨⟨⟨hll, hml, trivial⟩, ⟨hmr, hr, trivial⟩, trivial⟩,
    ⟨⟨bll, bml, by omega, by omega⟩, ⟨bmr, br, by omega, by omega⟩, by omega, by omega⟩,
    by omega⟩

theorem rotate_rl_spec {k rk mk : Key} {h rh mh : Nat} {l ml mr rr : Tree}
    (hl : HtOk l) (hml : HtOk ml) (hmr : HtOk mr) (hrr : HtOk rr)
    (bl : Bal l) (bml : Bal ml) (bmr : Bal mr) (brr : Bal rr)
    (hrh : rh = max mh (height rr) + 1)
    (hmh : mh = max (height ml) (height mr) + 1)
    (hbalm1 : (height ml : Int) - height mr ≤ 1)
    (hbalm2 : (height mr : Int) - height ml ≤ 1)
    (hrbal : (mh : Int) = height rr + 1)
    (hdiff : rh = height l + 2) :
    HtOk (rotate_left (.node k h l (rotate_right (.node rk rh (.node mk mh ml mr) rr)))) ∧
    Bal (rotate_left (.node k h l (rotate_right (.node rk rh (.node mk mh ml mr) rr)))) ∧
    height (rotate_left (.node k h l (rotate_right (.node rk rh (.node mk mh ml mr) rr)))) = rh := by
  rw [rotate_rl_node]
  simp only [HtOk_node, Bal_node, height_node]
  exact ⟨⟨⟨hl, hml, trivial⟩, ⟨hmr, hrr, trivial⟩, trivial⟩,
    ⟨⟨bl, bml, by omega, by omega⟩, ⟨bmr, brr, by omega, by omega⟩, by omega, by omega⟩,
    by omega⟩

theorem getBalance_leaf : getBalance .leaf = 0 := rfl

theorem insertStep_spec {rk : Key} {l r : Tree}
    (hl : HtOk l) (hr : HtOk r) (bl : Bal l) (br : Bal r)
    (hcase : ((height l : Int) - height r).natAbs ≤ 1 ∨
      (height l = height r + 2 ∧ getBalance l ≠ 0) ∨
      (height r = height l + 2 ∧ getBalance r ≠ 0)) :
    HtOk (insertStep rk l r) ∧ Bal (insertStep rk l r) ∧
      (((height l : Int) - height r).natAbs ≤ 1 →
        insertStep rk l r = .node rk (max (height l) (height r) + 1) l r) ∧
      (¬ ((height l : Int) - height r).natAbs ≤ 1 →
        height (insertStep rk l r) = max (height l) (height r)) := by
  unfold insertStep
  split
  · rename_i hcond
    obtain ⟨hd, hbl⟩ := hcond
    cases l with
    | leaf => rw [getBalance_leaf] at hbl; omega
    | node lk lh ll lr =>
      rw [HtOk_node] at hl
      rw [Bal_node] at bl
      obtain ⟨hll, hlr, hlheq⟩ := hl
      obtain ⟨bll, blr, bb1, bb2⟩ := bl
      rw [getBalance_node] at hbl
      rw [height_node] at hd
      have hdiff2 : lh = height r + 2 := by
        rcases hcase with hA | ⟨hB, _⟩ | ⟨hC, _⟩
        · rw [height_node] at hA; omega
        · rw [height_node] at hB; omega
        · rw [height_node] at hC; omega
      obtain ⟨s1, s2, s3, s4⟩ :=
        @rotate_right_spec rk _ (max (height (Tree.node lk lh ll lr)) (height r) + 1) _ _ _ _
          hll hlr hr bll blr br hlheq (le_of_lt hbl) bb1 hdiff2
      refine ⟨s1, s2, ?_, ?_⟩
      · intro hA; rw [height_node] at hA; omega
      · intro _; rw [s4 hbl, height_node]; omega
  split
  · rename_i hcond
    obtain ⟨hd, hbr⟩ := hcond
    cases r with
    | leaf => rw [getBalance_leaf] at hbr; omega
    | node rk2 rh2 rl rr =>
      rw [HtOk_node] at hr
      rw [Bal_node] at br
      obtain ⟨hrl, hrr, hrheq⟩ := hr
      obtain ⟨brl, brr, bb1, bb2⟩ := br
      rw [getBalance_node] at hbr
      rw [height_node] at hd
      have hdiff2 : rh2 = height l + 2 := by
        rcases hcase with hA | ⟨hB, _⟩ | ⟨hC, _⟩
        · rw [height_node] at hA; omega
        · rw [height_node] at hB; omega
        · rw [height_node] at hC; omega
      obtain ⟨s1, s2, s3, s4⟩ :=
        @rotate_left_spec rk _ (max (height l) (height (Tree.node rk2 rh2 rl rr)) + 1) _ _ _ _
          hl hrl hrr bl brl brr hrheq (le_of_lt hbr) bb2 hdiff2
      refine ⟨s1, s2, ?_, ?_⟩
      · intro hA; rw [height_node] at hA; omega
      · intro _; rw [s4 hbr, height_node]; omega
  split
  · rename_i hc1 hc2 hcond
    obtain ⟨hd, hbl⟩ := hcond
    cases l with
    | leaf => rw [getBalance_leaf] at hbl; omega
    | node lk lh ll lr =>
      rw [HtOk_node] at hl
      rw [Bal_node] at bl
      obtain ⟨hll, hlr, hlheq⟩ := hl
      obtain ⟨bll, blr, bb1, bb2⟩ := bl
      rw [getBalance_node] at hbl
      rw [height_node] at hd
      cases lr with
      | leaf => rw [height_leaf] at hbl; omega
      | node mk mh ml mr =>
        rw [HtOk_node] at hlr
        rw [Bal_node] at blr
        obtain ⟨hml, hmr, hmheq⟩ := hlr
        obtain ⟨bml, bmr, bm1, bm2⟩ := blr
        rw [height_node] at hbl bb1 bb2
        have hdiff2 : lh = height r + 2 := by
          rcases hcase with hA | ⟨hB, _⟩ | ⟨hC, _⟩
          · rw [height_node] at hA; omega
          · rw [height_node] at hB; omega
          · rw [height_node] at hC; omega
        have hlh2 : lh = max (height ll) mh + 1 := by
          rw [height_node] at hlheq; exact hlheq
        have hlbal : (mh : Int) = height ll + 1 := by omega
        obtain ⟨s1, s2, s3⟩ :=
          @rotate_lr_spec rk _ _ (max (height (Tree.node lk lh ll (Tree.node mk mh ml mr))) (height r) + 1) _ _ _ _ _ _
            hll hml hmr hr bll bml bmr br hlh2 hmheq bm1 bm2 hlbal hdiff2
        refine ⟨s1, s2, ?_, ?_⟩
        · intro hA; rw [height_node] at hA; omega
        · intro _; rw [s3, height_node]; omega
  split
  · rename_i hc1 hc2 hc3 hcond
    obtain ⟨hd, hbr⟩ := hcond
    cases r with
    | leaf => rw [getBalance_leaf] at hbr; omega
    | node rk2 rh2 rl rr =>
      rw [HtOk_node] at hr
      rw [Bal_node] at br
      obtain ⟨hrl, hrr, hrheq⟩ := hr
      obtain ⟨brl, brr, bb1, bb2⟩ := br
      rw [getBalance_node] at hbr
      rw [height_node] at hd
      cases rl with
      | leaf => rw [height_leaf] at hbr; omega
      | node mk mh ml mr =>
        rw [HtOk_node] at hrl
        rw [Bal_node] at brl
        obtain ⟨hml, hmr, hmheq⟩ := hrl
        obtain ⟨bml, bmr, bm1, bm2⟩ := brl
        rw [height_node] at hbr bb1 bb2
        have hdiff2 : rh2 = height l + 2 := by
          rcases hcase with hA | ⟨hB, _⟩ | ⟨hC, _⟩
          · rw [height_node] at hA; omega
          · rw [height_node] at hB; omega
          · rw [height_node] at hC; omega
        have hrh2 : rh2 = max mh (height rr) + 1 := by
          rw [height_node] at hrheq; exact hrheq
        have hrbal : (mh : Int) = height rr + 1 := by omega
        obtain ⟨s1, s2, s3⟩ :=
          @rotate_rl_spec rk _ _ (max (height l) (height (Tree.node rk2 rh2 (Tree.node mk mh ml mr) rr)) + 1) _ _ _ _ _ _
            hl hml hmr hrr bl bml bmr brr hrh2 hmheq bm1 bm2 hrbal hdiff2
        refine ⟨s1, s2, ?_, ?_⟩
        · intro hA; rw [height_node] at hA; omega
        · intro _; rw [s3, height_node]; omega
  · rename_i hc1 hc2 hc3 hc4
    have hA : ((height l : Int) - height r).natAbs ≤ 1 := by
      rcases hcase with hA | ⟨hB, hBb⟩ | ⟨hC, hCb⟩
      · exact hA
      · exfalso
        have h1 : ¬ ((height r : Int) - height l < -1 ∧ getBalance l < 0) := hc1
        have h3 : ¬ ((height r : Int) - height l < -1 ∧ 0 < getBalance l) := hc3
        omega
      · exfalso
        have h2 : ¬ (1 < (height r : Int) - height l ∧ 0 < getBalance r) := hc2
        have h4 : ¬ (1 < (height r : Int) - height l ∧ getBalance r < 0) := hc4
        omega
    refine ⟨HtOk_node.mpr ⟨hl, hr, rfl⟩, Bal_node.mpr ⟨bl, br, by omega, by omega⟩,
      fun _ => rfl, fun hnA => absurd hA hnA⟩

theorem deleteStep_spec {rk : Key} {l r : Tree}
    (hl : HtOk l) (hr : HtOk r) (bl : Bal l) (br : Bal r)
    (hdiff : ((height l : Int) - height r).natAbs ≤ 2) :
    HtOk (deleteStep rk l r) ∧ Bal (deleteStep rk l r) ∧
      (height (deleteStep rk l r) = max (height l) (height r) + 1 ∨
        (((height l : Int) - height r).natAbs = 2 ∧
          height (deleteStep rk l r) = max (height l) (height r))) := by
  unfold deleteStep
  split
  · rename_i hcond
    obtain ⟨hd, hbl⟩ := hcond
    cases l with
    | leaf => rw [height_leaf] at hd; omega
    | node lk lh ll lr =>
      rw [HtOk_node] at hl
      rw [Bal_node] at bl
      obtain ⟨hll, hlr, hlheq⟩ := hl
      obtain ⟨bll, blr, bb1, bb2⟩ := bl
      rw [getBalance_node] at hbl
      rw [height_node] at hd
      rw [height_node] at hdiff
      have hdiff2 : lh = height r + 2 := by omega
      obtain ⟨s1, s2, s3, s4⟩ :=
        @rotate_right_spec rk _ (max (height (Tree.node lk lh ll lr)) (height r) + 1) _ _ _ _
          hll hlr hr bll blr br hlheq hbl bb1 hdiff2
      refine ⟨s1, s2, ?_⟩
      rcases s3 with h | h
      · right
        constructor
        · rw [height_node]; omega
        · rw [h, height_node]; omega
      · left
        rw [h, height_node]; omega
  split
  · rename_i hcond
    obtain ⟨hd, hbr⟩ := hcond
    cases r with
    | leaf => rw [height_leaf] at hd; omega
    | node rk2 rh2 rl rr =>
      rw [HtOk_node] at hr
      rw [Bal_node] at br
      obtain ⟨hrl, hrr, hrheq⟩ := hr
      obtain ⟨brl, brr, bb1, bb2⟩ := br
      rw [getBalance_node] at hbr
      rw [height_node] at hd
      rw [height_node] at hdiff
      have hdiff2 : rh2 = height l + 2 := by omega
      obtain ⟨s1, s2, s3, s4⟩ :=
        @rotate_left_spec rk _ (max (height l) (height (Tree.node rk2 rh2 rl rr)) + 1) _ _ _ _
          hl hrl hrr bl brl brr hrheq hbr bb2 hdiff2
      refine ⟨s1, s2, ?_⟩
      rcases s3 with h | h
      · right
        constructor
        · rw [height_node]; omega
        · rw [h, height_node]; omega
      · left
        rw [h, height_node]; omega
  split
  · rename_i hc1 hc2 hcond
    obtain ⟨hd, hbl⟩ := hcond
    cases l with
    | leaf => rw [getBalance_leaf] at hbl; omega
    | node lk lh ll lr =>
      rw [HtOk_node] at hl
      rw [Bal_node] at bl
      obtain ⟨hll, hlr, hlheq⟩ := hl
      obtain ⟨bll, blr, bb1, bb2⟩ := bl
      rw [getBalance_node] at hbl
      rw [height_node] at hd
      rw [height_node] at hdiff
      cases lr with
      | leaf => rw [height_leaf] at hbl; omega
      | node mk mh ml mr =>
        rw [HtOk_node] at hlr
        rw [Bal_node] at blr
        obtain ⟨hml, hmr, hmheq⟩ := hlr
        obtain ⟨bml, bmr, bm1, bm2⟩ := blr
        rw [height_node] at hbl bb1 bb2
        have hdiff2 : lh = height r + 2 := by omega
        have hlh2 : lh = max (height ll) mh + 1 := by
          rw [height_node] at hlheq; exact hlheq
        have hlbal : (mh : Int) = height ll + 1 := by omega
        obtain ⟨s1, s2, s3⟩ :=
          @rotate_lr_spec rk _ _ (max (height (Tree.node lk lh ll (Tree.node mk mh ml mr))) (height r) + 1) _ _ _ _ _ _
            hll hml hmr hr bll bml bmr br hlh2 hmheq bm1 bm2 hlbal hdiff2
        refine ⟨s1, s2, Or.inr ⟨?_, ?_⟩⟩
        · rw [height_node]; omega
        · rw [s3, height_node]; omega
  split
  · rename_i hc1 hc2 hc3 hcond
    obtain ⟨hd, hbr⟩ := hcond
    cases r with
    | leaf => rw [getBalance_leaf] at hbr; omega
    | node rk2 rh2 rl rr =>
      rw [HtOk_node] at hr
      rw [Bal_node] at br
      obtain ⟨hrl, hrr, hrheq⟩ := hr
      obtain ⟨brl, brr, bb1, bb2⟩ := br
      rw [getBalance_node] at hbr
      rw [height_node] at hd
      rw [height_node] at hdiff
      cases rl with
      | leaf => rw [height_leaf] at hbr; omega
      | node mk mh ml mr =>
        rw [HtOk_node] at hrl
        rw [Bal_node] at brl
        obtain ⟨hml, hmr, hmheq⟩ := hrl
        obtain ⟨bml, bmr, bm1, bm2⟩ := brl
        rw [height_node] at hbr bb1 bb2
        have hdiff2 : rh2 = height l + 2 := by omega
        have hrh2 : rh2 = max mh (height rr) + 1 := by
          rw [height_node] at hrheq; exact hrheq
        have hrbal : (mh : Int) = height rr + 1 := by omega
        obtain ⟨s1, s2, s3⟩ :=
          @rotate_rl_spec rk _ _ (max (height l) (height (Tree.node rk2 rh2 (Tree.node mk mh ml mr) rr)) + 1) _ _ _ _ _ _
            hl hml hmr hrr bl bml bmr brr hrh2 hmheq bm1 bm2 hrbal hdiff2
        refine ⟨s1, s2, Or.inr ⟨?_, ?_⟩⟩
        · rw [height_node]; omega
        · rw [s3, height_node]; omega
  · rename_i hc1 hc2 hc3 hc4
    have hA : ((height l : Int) - height r).natAbs ≤ 1 := by
      have h1 : ¬ ((height r : Int) - height l < -1 ∧ getBalance l ≤ 0) := hc1
      have h2 : ¬ (1 < (height r : Int) - height l ∧ 0 ≤ getBalance r) := hc2
      have h3 : ¬ ((height r : Int) - height l < -1 ∧ 0 < getBalance l) := hc3
      have h4 : ¬ (1 < (height r : Int) - height l ∧ getBalance r < 0) := hc4
      omega
    exact ⟨HtOk_node.mpr ⟨hl, hr, rfl⟩, Bal_node.mpr ⟨bl, br, by omega, by omega⟩,
      Or.inl (by rw [height_node])⟩

theorem insert_node {rk k : Key} {rh : Nat} {l r : Tree} :
    insert (.node rk rh l r) k =
      if cmp k rk < 0 then insertStep rk (insert l k) r
      else insertStep rk l (insert r k) := rfl

theorem deleteStepT_node {rk : Key} {rh : Nat} {l r : Tree} :
    deleteStepT (.node rk rh l r) = deleteStep rk l r := rfl

theorem insert_avl : ∀ (t : Tree), HtOk t → Bal t → ∀ (k : Key),
    (HtOk (insert t k) ∧ Bal (insert t k)) ∧
    (height (insert t k) = height t ∨
      (height (insert t k) = height t + 1 ∧ (getBalance (insert t k) ≠ 0 ∨ t = .leaf))) := by
  intro t
  induction t with
  | leaf =>
    intro _ _ k
    have hins : insert .leaf k = .node k 1 .leaf .leaf := rfl
    rw [hins]
    refine ⟨⟨HtOk_node.mpr ⟨trivial, trivial, rfl⟩,
      Bal_node.mpr ⟨trivial, trivial, by rw [height_leaf]; omega, by rw [height_leaf]; omega⟩⟩,
      Or.inr ⟨by rw [height_node, height_leaf], Or.inr rfl⟩⟩
  | node rk rh l r ihl ihr =>
    intro hh hb k
    rw [HtOk_node] at hh
    rw [Bal_node] at hb
    obtain ⟨hl, hr, hrheq⟩ := hh
    obtain ⟨bl, br, bb1, bb2⟩ := hb
    rw [insert_node]
    split
    · obtain ⟨⟨hl', bl'⟩, hgrow⟩ := ihl hl bl k
      rcases hgrow with hsame | ⟨hplus, hbal'⟩
      · have hA : ((height (insert l k) : Int) - height r).natAbs ≤ 1 := by omega
        obtain ⟨s1, s2, s3, s4⟩ := insertStep_spec hl' hr bl' br (Or.inl hA)
        rw [s3 hA]
        refine ⟨⟨HtOk_node.mpr ⟨hl', hr, rfl⟩, Bal_node.mpr ⟨bl', br, by omega, by omega⟩⟩,
          Or.inl ?_⟩
        rw [height_node, height_node]
        omega
      · have trich : height r = height l + 1 ∨ height r = height l ∨
            height l = height r + 1 := by omega
        rcases trich with hc | hc | hc
        · have hA : ((height (insert l k) : Int) - height r).natAbs ≤ 1 := by omega
          obtain ⟨s1, s2, s3, s4⟩ := insertStep_spec hl' hr bl' br (Or.inl hA)
          rw [s3 hA]
          refine ⟨⟨HtOk_node.mpr ⟨hl', hr, rfl⟩, Bal_node.mpr ⟨bl', br, by omega, by omega⟩⟩,
            Or.inl ?_⟩
          rw [height_node, height_node]
          omega
        · have hA : ((height (insert l k) : Int) - height r).natAbs ≤ 1 := by omega
          obtain ⟨s1, s2, s3, s4⟩ := insertStep_spec hl' hr bl' br (Or.inl hA)
          rw [s3 hA]
          refine ⟨⟨HtOk_node.mpr ⟨hl', hr, rfl⟩, Bal_node.mpr ⟨bl', br, by omega, by omega⟩⟩,
            Or.inr ⟨?_, Or.inl ?_⟩⟩
          · rw [height_node, height_node]
            omega
          · rw [getBalance_node]
            omega
        · have hlne : l ≠ .leaf := by
            intro hleaf
            rw [hleaf, height_leaf] at hc
            omega
          have hbal2 : getBalance (insert l k) ≠ 0 := by
            rcases hbal' with h | h
            · exact h
            · exact absurd h hlne
          have hB : height (insert l k) = height r + 2 ∧ getBalance (insert l k) ≠ 0 :=
            ⟨by omega, hbal2⟩
          obtain ⟨s1, s2, s3, s4⟩ := insertStep_spec hl' hr bl' br (Or.inr (Or.inl hB))
          have hnA : ¬ ((height (insert l k) : Int) - height r).natAbs ≤ 1 := by omega
          refine ⟨⟨s1, s2⟩, Or.inl ?_⟩
          rw [s4 hnA, height_node]
          omega
    · obtain ⟨⟨hr', br'⟩, hgrow⟩ := ihr hr br k
      rcases hgrow with hsame | ⟨hplus, hbal'⟩
      · have hA : ((height l : Int) - height (insert r k)).natAbs ≤ 1 := by omega
        obtain ⟨s1, s2, s3, s4⟩ := insertStep_spec hl hr' bl br' (Or.inl hA)
        rw [s3 hA]
        refine ⟨⟨HtOk_node.mpr ⟨hl, hr', rfl⟩, Bal_node.mpr ⟨bl, br', by omega, by omega⟩⟩,
          Or.inl ?_⟩
        rw [height_node, height_node]
        omega
      · have trich : height l = height r + 1 ∨ height l = height r ∨
            height r = height l + 1 := by omega
        rcases trich with hc | hc | hc
        · have hA : ((height l : Int) - height (insert r k)).natAbs ≤ 1 := by omega
          obtain ⟨s1, s2, s3, s4⟩ := insertStep_spec hl hr' bl br' (Or.inl hA)
          rw [s3 hA]
          refine ⟨⟨HtOk_node.mpr ⟨hl, hr', rfl⟩, Bal_node.mpr ⟨bl, br', by omega, by omega⟩⟩,
            Or.inl ?_⟩
          rw [height_node, height_node]
          omega
        · have hA : ((height l : Int) - height (insert r k)).natAbs ≤ 1 := by omega
          obtain ⟨s1, s2, s3, s4⟩ := insertStep_spec hl hr' bl br' (Or.inl hA)
          rw [s3 hA]
          refine ⟨⟨HtOk_node.mpr ⟨hl, hr', rfl⟩, Bal_node.mpr ⟨bl, br', by omega, by omega⟩⟩,
            Or.inr ⟨?_, Or.inl ?_⟩⟩
          · rw [height_node, height_node]
            omega
          · rw [getBalance_node]
            omega
        · have hrne : r ≠ .leaf := by
            intro hleaf
            rw [hleaf, height_leaf] at hc
            omega
          have hbal2 : getBalance (insert r k) ≠ 0 := by
            rcases hbal' with h | h
            · exact h
            · exact absurd h hrne
          have hC : height (insert r k) = height l + 2 ∧ getBalance (insert r k) ≠ 0 :=
            ⟨by omega, hbal2⟩
          obtain ⟨s1, s2, s3, s4⟩ := insertStep_spec hl hr' bl br' (Or.inr (Or.inr hC))
          have hnA : ¬ ((height l : Int) - height (insert r k)).natAbs ≤ 1 := by omega
          refine ⟨⟨s1, s2⟩, Or.inl ?_⟩
          rw [s4 hnA, height_node]
          omega

theorem delete_avl : ∀ (t : Tree), HtOk t → Bal t → ∀ (k : Key),
    (HtOk (delete t k) ∧ Bal (delete t k)) ∧
    (height (delete t k) = height t ∨ height (delete t k) + 1 = height t) := by
  intro t
  induction t with
  | leaf => intro _ _ k; exact ⟨⟨trivial, trivial⟩, Or.inl rfl⟩
  | node rk rh l r ihl ihr =>
    intro hh hb k
    rw [HtOk_node] at hh
    rw [Bal_node] at hb
    obtain ⟨hl, hr, hrheq⟩ := hh
    obtain ⟨bl, br, bb1, bb2⟩ := hb
    by_cases hcmp : cmp k rk < 0
    · rw [delete_lt hcmp]
      obtain ⟨⟨hl', bl'⟩, hht⟩ := ihl hl bl k
      have hd2 : ((height (delete l k) : Int) - height r).natAbs ≤ 2 := by omega
      obtain ⟨s1, s2, s3⟩ := @deleteStep_spec rk _ _ hl' hr bl' br hd2
      refine ⟨⟨s1, s2⟩, ?_⟩
      rw [height_node]
      rcases s3 with h | ⟨hab, h⟩ <;> rw [h] <;> omega
    · by_cases hcmp2 : 0 < cmp k rk
      · rw [delete_gt hcmp2]
        obtain ⟨⟨hr', br'⟩, hht⟩ := ihr hr br k
        have hd2 : ((height l : Int) - height (delete r k)).natAbs ≤ 2 := by omega
        obtain ⟨s1, s2, s3⟩ := @deleteStep_spec rk _ _ hl hr' bl br' hd2
        refine ⟨⟨s1, s2⟩, ?_⟩
        rw [height_node]
        rcases s3 with h | ⟨hab, h⟩ <;> rw [h] <;> omega
      · cases l with
        | leaf =>
          rw [delete_eq_left_leaf hcmp hcmp2]
          cases r with
          | leaf =>
            refine ⟨⟨trivial, trivial⟩, Or.inr ?_⟩
            show height Tree.leaf + 1 = height (Tree.node rk rh Tree.leaf Tree.leaf)
            simp only [height_leaf] at hrheq
            rw [height_leaf, height_node]
            omega
          | node a2 b2 c2 d2 =>
            rw [deleteStepT_node]
            rw [HtOk_node] at hr
            rw [Bal_node] at br
            obtain ⟨hc2, hd2x, hb2eq⟩ := hr
            obtain ⟨bc2, bd2, bbb1, bbb2⟩ := br
            have hd2 : ((height c2 : Int) - height d2).natAbs ≤ 2 := by omega
            obtain ⟨s1, s2, s3⟩ := @deleteStep_spec a2 _ _ hc2 hd2x bc2 bd2 hd2
            refine ⟨⟨s1, s2⟩, ?_⟩
            rw [height_leaf, height_node] at hrheq
            rw [height_node]
            rcases s3 with h | ⟨hab, h⟩ <;> rw [h] <;> omega
        | node a b c d =>
          cases r with
          | leaf =>
            rw [delete_eq_right_leaf hcmp hcmp2, deleteStepT_node]
            rw [HtOk_node] at hl
            rw [Bal_node] at bl
            obtain ⟨hc2, hd2x, hb2eq⟩ := hl
            obtain ⟨bc2, bd2, bbb1, bbb2⟩ := bl
            have hd2 : ((height c : Int) - height d).natAbs ≤ 2 := by omega
            obtain ⟨s1, s2, s3⟩ := @deleteStep_spec a _ _ hc2 hd2x bc2 bd2 hd2
            refine ⟨⟨s1, s2⟩, ?_⟩
            rw [height_leaf, height_node] at hrheq
            rw [height_node]
            rcases s3 with h | ⟨hab, h⟩ <;> rw [h] <;> omega
          | node a2 b2 c2 d2 =>
            rw [delete_eq_two hcmp hcmp2]
            obtain ⟨⟨hr', br'⟩, hht⟩ := ihr hr br (minValue (.node a2 b2 c2 d2))
            have hd2 : ((height (.node a b c d) : Int) -
                height (delete (.node a2 b2 c2 d2) (minValue (.node a2 b2 c2 d2)))).natAbs ≤ 2 := by
              omega
            obtain ⟨s1, s2, s3⟩ := deleteStep_spec hl hr' bl br' hd2
            refine ⟨⟨s1, s2⟩, ?_⟩
            rw [height_node]
            rcases s3 with h | ⟨hab, h⟩ <;> rw [h] <;> omega

theorem U64_eq : U64 = 18446744073709551616 := by norm_num [U64]

theorem sizeSum_nil : sizeSum [] = 0 := rfl

theorem sizeSum_cons (b : Block) (bs : List Block) :
    sizeSum (b :: bs) = b.bsize + sizeSum bs := by
  simp [sizeSum]

theorem sizeSum_append (xs ys : List Block) :
    sizeSum (xs ++ ys) = sizeSum xs + sizeSum ys := by
  simp [sizeSum]

theorem ALIGN_UP_mod (x : Nat) : ALIGN_UP x % ALIGN = 0 := by
  rw [ALIGN_UP, ALIGN]
  omega

theorem ALIGN_UP_ge {x : Nat} (hx : x + 15 < U64) : x ≤ ALIGN_UP x := by
  rw [ALIGN_UP, ALIGN]
  rw [U64_eq] at hx ⊢
  omega

theorem ALIGN_UP_le {x m : Nat} (hx : x ≤ m) (hm : m % ALIGN = 0) (hmU : m < U64) :
    ALIGN_UP x ≤ m := by
  rw [ALIGN_UP, ALIGN]
  rw [ALIGN] at hm
  rw [U64_eq] at hmU ⊢
  omega

theorem MIN_BLOCK_SIZE_eq : MIN_BLOCK_SIZE = 48 := by
  rw [MIN_BLOCK_SIZE, MIN_PAYLOAD_SIZE, SIZEOF_FREE_BLOCK, HEADER_SIZE, FOOTER_SIZE]
  rw [ALIGN_UP, ALIGN_UP, ALIGN, U64_eq]

theorem locate_spec : ∀ (bs : List Block) (lo p : Nat) (pre : List Block) (b : Block)
    (post : List Block), locate lo bs p = some (pre, b, post) →
    bs = pre ++ b :: post ∧ p = lo + sizeSum pre + HEADER_SIZE := by
  intro bs
  induction bs with
  | nil => intro lo p pre b post h; simp [locate] at h
  | cons x xs ih =>
    intro lo p pre b post h
    by_cases hif : lo + HEADER_SIZE = p
    · rw [locate, if_pos hif] at h
      obtain ⟨rfl, rfl, rfl⟩ : ([] : List Block) = pre ∧ x = b ∧ xs = post := by
        injection h with h2
        injection h2 with h3 h4
        injection h4 with h5 h6
        exact ⟨h3, h5, h6⟩
      exact ⟨rfl, by rw [sizeSum_nil]; omega⟩
    · rw [locate, if_neg hif] at h
      cases hrec : locate (lo + x.bsize) xs p with
      | none => rw [hrec] at h; exact absurd h (by simp)
      | some res =>
        obtain ⟨pre2, c, post2⟩ := res
        rw [hrec] at h
        obtain ⟨hpre, hb, hpost⟩ : x :: pre2 = pre ∧ c = b ∧ post2 = post := by
          injection h with h2
          injection h2 with h3 h4
          injection h4 with h5 h6
          exact ⟨h3, h5, h6⟩
        subst hpre
        subst hb
        subst hpost
        obtain ⟨hxs, hp⟩ := ih (lo + x.bsize) p pre2 c post2 hrec
        refine ⟨by rw [hxs]; rfl, ?_⟩
        rw [sizeSum_cons]
        omega

theorem locate_complete : ∀ (pre : List Block) (lo : Nat) (b : Block) (post : List Block),
    (∀ blk ∈ pre, 0 < blk.bsize) →
    locate lo (pre ++ b :: post) (lo + sizeSum pre + HEADER_SIZE) = some (pre, b, post) := by
  intro pre
  induction pre with
  | nil =>
    intro lo b post _
    rw [sizeSum_nil]
    simp [locate]
  | cons x xs ih =>
    intro lo b post hpos
    have hx : 0 < x.bsize := hpos x (by simp)
    rw [sizeSum_cons, List.cons_append, locate,
      if_neg (by omega : ¬ lo + HEADER_SIZE = lo + (x.bsize + sizeSum xs) + HEADER_SIZE)]
    have := ih (lo + x.bsize) b post (fun blk hb => hpos blk (by simp [hb]))
    rw [show lo + (x.bsize + sizeSum xs) + HEADER_SIZE =
      (lo + x.bsize) + sizeSum xs + HEADER_SIZE by omega, this]

theorem locate_append : ∀ (xs : List Block) (lo p : Nat) (ys : List Block),
    locate lo (xs ++ ys) p =
      match locate lo xs p with
      | some (pre, b, post) => some (pre, b, post ++ ys)
      | none =>
        match locate (lo + sizeSum xs) ys p with
        | some (pre, b, post) => some (xs ++ pre, b, post)
        | none => none := by
  intro xs
  induction xs with
  | nil =>
    intro lo p ys
    rw [sizeSum_nil, List.nil_append]
    cases h : locate lo ys p with
    | none => simp [locate, h]
    | some res => obtain ⟨pre, b, post⟩ := res; simp [locate, h]
  | cons x xs ih =>
    intro lo p ys
    rw [List.cons_append, locate, locate]
    by_cases hif : lo + HEADER_SIZE = p
    · rw [if_pos hif, if_pos hif]
    · rw [if_neg hif, if_neg hif, ih (lo + x.bsize) p ys, sizeSum_cons]
      cases h1 : locate (lo + x.bsize) xs p with
      | some res => obtain ⟨pre, b, post⟩ := res; rfl
      | none =>
        rw [show lo + x.bsize + sizeSum xs = lo + (x.bsize + sizeSum xs) by omega]
        cases h2 : locate (lo + (x.bsize + sizeSum xs)) ys p with
        | none => rfl
        | some res => obtain ⟨pre, b, post⟩ := res; rfl

theorem locate_none_of_lt : ∀ (bs : List Block) (lo p : Nat), p < lo + HEADER_SIZE →
    locate lo bs p = none := by
  intro bs
  induction bs with
  | nil => intro lo p _; rfl
  | cons x xs ih =>
    intro lo p hp
    rw [locate, if_neg (by omega)]
    rw [ih (lo + x.bsize) p (by omega)]

theorem locate_none_of_ge : ∀ (bs : List Block) (lo p : Nat),
    (∀ b ∈ bs, 0 < b.bsize) → lo + sizeSum bs + HEADER_SIZE ≤ p →
    locate lo bs p = none := by
  intro bs
  induction bs with
  | nil => intro lo p _ _; rfl
  | cons x xs ih =>
    intro lo p hpos hp
    rw [sizeSum_cons] at hp
    have hx : 0 < x.bsize := hpos x (by simp)
    rw [locate, if_neg (by omega)]
    rw [ih (lo + x.bsize) p (fun b hb => hpos b (by simp [hb])) (by omega)]

theorem entriesAux_nil (a : Nat) : entriesAux a [] = [] := rfl

theorem entriesAux_cons (a : Nat) (x : Block) (xs : List Block) :
    entriesAux a (x :: xs) =
      (if x.balloc then [] else [(x.bsize, a + HEADER_SIZE)]) ++
        entriesAux (a + x.bsize) xs := rfl

theorem entriesAux_append : ∀ (xs ys : List Block) (a : Nat),
    entriesAux a (xs ++ ys) = entriesAux a xs ++ entriesAux (a + sizeSum xs) ys := by
  intro xs
  induction xs with
  | nil => intro ys a; rw [sizeSum_nil, entriesAux_nil]; simp
  | cons x xs ih =>
    intro ys a
    rw [List.cons_append, entriesAux_cons, entriesAux_cons, ih ys (a + x.bsize), sizeSum_cons,
      List.append_assoc]
    rw [show a + x.bsize + sizeSum xs = a + (x.bsize + sizeSum xs) by omega]

theorem entriesAux_mem_range : ∀ (bs : List Block) (a : Nat),
    (∀ b ∈ bs, 0 < b.bsize) →
    ∀ k ∈ entriesAux a bs, a + HEADER_SIZE ≤ k.2 ∧ k.2 < a + sizeSum bs + HEADER_SIZE := by
  intro bs
  induction bs with
  | nil => intro a _ k hk; rw [entriesAux_nil] at hk; simp at hk
  | cons x xs ih =>
    intro a hpos k hk
    have hx : 0 < x.bsize := hpos x (by simp)
    rw [entriesAux_cons] at hk
    rw [sizeSum_cons]
    rcases List.mem_append.mp hk with hk1 | hk2
    · have hkeq : k = (x.bsize, a + HEADER_SIZE) := by
        by_cases hal : x.balloc <;> simp [hal] at hk1
        exact hk1
      rw [hkeq]
      exact ⟨le_refl _, by omega⟩
    · have := ih (a + x.bsize) (fun b hb => hpos b (by simp [hb])) k hk2
      omega

theorem entriesAux_mem_decomp : ∀ (bs : List Block) (a : Nat) (k : Key),
    k ∈ entriesAux a bs →
    ∃ pre b post, bs = pre ++ b :: post ∧ b.balloc = false ∧
      k = (b.bsize, a + sizeSum pre + HEADER_SIZE) := by
  intro bs
  induction bs with
  | nil => intro a k hk; rw [entriesAux_nil] at hk; simp at hk
  | cons x xs ih =>
    intro a k hk
    rw [entriesAux_cons] at hk
    rcases List.mem_append.mp hk with hk1 | hk2
    · by_cases hal : x.balloc <;> simp [hal] at hk1
      refine ⟨[], x, xs, rfl, by simpa using hal, ?_⟩
      rw [sizeSum_nil, hk1]
      simp
    · obtain ⟨pre, b, post, hbs, hbal, hkeq⟩ := ih (a + x.bsize) k hk2
      refine ⟨x :: pre, b, post, by rw [hbs]; rfl, hbal, ?_⟩
      rw [hkeq, sizeSum_cons]
      rw [show a + (x.bsize + sizeSum pre) + HEADER_SIZE =
        a + x.bsize + sizeSum pre + HEADER_SIZE by omega]

theorem entriesAux_decomp_mem : ∀ (pre : List Block) (a : Nat) (b : Block) (post : List Block),
    b.balloc = false →
    (b.bsize, a + sizeSum pre + HEADER_SIZE) ∈ entriesAux a (pre ++ b :: post) := by
  intro pre
  induction pre with
  | nil =>
    intro a b post hb
    rw [sizeSum_nil, List.nil_append, entriesAux_cons, hb]
    simp
  | cons x xs ih =>
    intro a b post hb
    rw [sizeSum_cons, List.cons_append, entriesAux_cons]
    refine List.mem_append.mpr (Or.inr ?_)
    have := ih (a + x.bsize) b post hb
    rw [show a + (x.bsize + sizeSum xs) + HEADER_SIZE =
      a + x.bsize + sizeSum xs + HEADER_SIZE by omega]
    exact this

theorem pop_best_fit_eq_some {t : Tree} {s : Nat} {b : Key} {t2 : Tree}
    (h : pop_best_fit t s = (some b, t2)) :
    best_fit t s = some b ∧ t2 = delete t b := by
  rw [pop_best_fit] at h
  cases hf : best_fit t s with
  | none => rw [hf] at h; simp at h
  | some c =>
    rw [hf] at h
    obtain ⟨h1, h2⟩ : (some c : Option Key) = some b ∧ delete t c = t2 := by
      injection h with ha hb
      exact ⟨ha, hb⟩
    injection h1 with h1
    subst h1
    exact ⟨rfl, h2.symm⟩

theorem pop_best_fit_eq_none {t : Tree} {s : Nat} {t2 : Tree}
    (h : pop_best_fit t s = (none, t2)) : best_fit t s = none ∧ t2 = t := by
  rw [pop_best_fit] at h
  cases hf : best_fit t s with
  | none =>
    rw [hf] at h
    obtain ⟨h1, h2⟩ : (none : Option Key) = none ∧ t = t2 := by
      injection h with ha hb
      exact ⟨ha, hb⟩
    exact ⟨rfl, h2.symm⟩
  | some c => rw [hf] at h; simp at h

theorem locate_replace_frame {lo p : Nat} {preq seg1 seg2 postq : List Block}
    {pre1 : List Block} {b1 : Block} {post1 : List Block}
    (hsum : sizeSum seg1 = sizeSum seg2) (hpos2 : ∀ b ∈ seg2, 0 < b.bsize)
    (hloc : locate lo (preq ++ (seg1 ++ postq)) p = some (pre1, b1, post1)) :
    (∃ a c d, locate (lo + sizeSum preq) seg1 p = some (a, c, d) ∧ b1 = c) ∨
    (∃ pre2 post2, locate lo (preq ++ (seg2 ++ postq)) p = some (pre2, b1, post2) ∧
      sizeSum pre2 = sizeSum pre1) := by
  rw [locate_append preq lo p (seg1 ++ postq)] at hloc
  cases h1 : locate lo preq p with
  | some res =>
    obtain ⟨a, c, d⟩ := res
    rw [h1] at hloc
    simp only at hloc
    obtain ⟨hpre, hb, hpost⟩ : a = pre1 ∧ c = b1 ∧ d ++ (seg1 ++ postq) = post1 := by
      injection hloc with h2
      injection h2 with h3 h4
      injection h4 with h5 h6
      exact ⟨h3, h5, h6⟩
    refine Or.inr ⟨a, d ++ (seg2 ++ postq), ?_, by rw [hpre]⟩
    rw [locate_append preq lo p (seg2 ++ postq), h1, hb]
  | none =>
    rw [h1] at hloc
    simp only at hloc
    rw [locate_append seg1 (lo + sizeSum preq) p postq] at hloc
    cases h2 : locate (lo + sizeSum preq) seg1 p with
    | some res =>
      obtain ⟨a, c, d⟩ := res
      rw [h2] at hloc
      simp only at hloc
      refine Or.inl ⟨a, c, d, rfl, ?_⟩
      injection hloc with h3
      injection h3 with h4 h5
      injection h5 with h6 h7
      exact h6.symm
    | none =>
      rw [h2] at hloc
      simp only at hloc
      cases h3 : locate (lo + sizeSum preq + sizeSum seg1) postq p with
      | none => rw [h3] at hloc; simp at hloc
      | some res =>
        obtain ⟨a, c, d⟩ := res
        rw [h3] at hloc
        simp only at hloc
        obtain ⟨hpre, hb, hpost⟩ : preq ++ (seg1 ++ a) = pre1 ∧ c = b1 ∧ d = post1 := by
          injection hloc with h4
          injection h4 with h5 h6
          injection h6 with h7 h8
          exact ⟨h5, h7, h8⟩
        obtain ⟨hdec, hp⟩ := locate_spec postq (lo + sizeSum preq + sizeSum seg1) p a c d h3
        have hge : lo + sizeSum preq + sizeSum seg2 + HEADER_SIZE ≤ p := by omega
        refine Or.inr ⟨preq ++ (seg2 ++ a), d, ?_, ?_⟩
        · rw [locate_append preq lo p (seg2 ++ postq), h1]
          simp only
          rw [locate_append seg2 (lo + sizeSum preq) p postq,
            locate_none_of_ge seg2 (lo + sizeSum preq) p hpos2 (by omega)]
          simp only
          rw [show lo + sizeSum preq + sizeSum seg2 = lo + sizeSum preq + sizeSum seg1 by omega,
            h3, hb]
        · simp only [← hpre, sizeSum_append]
          omega

/-- C1: on a BST-ordered index, best_fit returns the node of the block
with the smallest size at least s, ties broken toward the smallest
address; it returns null exactly when no block has size at least s; and
pop_best_fit (hence the selection made by my_malloc) returns exactly
this node. -/
theorem c1_best_fit_selects_minimum (t : Tree) (s : Nat) (hord : Ordered t) :
    (best_fit t s = none ↔ ∀ k ∈ inorder t, k.1 < s) ∧
    (∀ b, best_fit t s = some b →
      b ∈ inorder t ∧ s ≤ b.1 ∧
        ∀ k ∈ inorder t, s ≤ k.1 → b.1 ≤ k.1 ∧ (b.1 = k.1 → b.2 ≤ k.2)) ∧
    (pop_best_fit t s).1 = best_fit t s := by
  have hfind := @best_fit_eq_find t s hord
  refine ⟨?_, ?_, ?_⟩
  · rw [hfind, List.find?_eq_none]
    constructor
    · intro h k hk
      have := h k hk
      simp only [decide_eq_true_eq] at this
      omega
    · intro h k hk
      have := h k hk
      simp only [decide_eq_true_eq]
      omega
  · intro b hb
    rw [hfind] at hb
    have hmem := List.mem_of_find?_eq_some hb
    have hpred := List.find?_some hb
    simp only [decide_eq_true_eq] at hpred
    refine ⟨hmem, hpred, ?_⟩
    intro k hk hks
    have hmin := find?_is_min (ordered_iff_pairwise.mp hord) hb k hk
      (by simp only [decide_eq_true_eq]; exact hks)
    unfold keyLt at hmin
    constructor
    · omega
    · intro h1; omega
  · rw [pop_best_fit]
    cases h : best_fit t s <;> simp [h]

/-- Witness for C1 at a concrete ordered tree and request size. -/
theorem c1_witness :
    Ordered (Tree.node (50, 100) 2 (Tree.node (30, 40) 1 .leaf .leaf)
      (Tree.node (60, 10) 1 .leaf .leaf)) ∧
    ((best_fit (Tree.node (50, 100) 2 (Tree.node (30, 40) 1 .leaf .leaf)
        (Tree.node (60, 10) 1 .leaf .leaf)) 40 = none ↔
      ∀ k ∈ inorder (Tree.node (50, 100) 2 (Tree.node (30, 40) 1 .leaf .leaf)
        (Tree.node (60, 10) 1 .leaf .leaf)), k.1 < 40) ∧
    (∀ b, best_fit (Tree.node (50, 100) 2 (Tree.node (30, 40) 1 .leaf .leaf)
        (Tree.node (60, 10) 1 .leaf .leaf)) 40 = some b →
      b ∈ inorder (Tree.node (50, 100) 2 (Tree.node (30, 40) 1 .leaf .leaf)
        (Tree.node (60, 10) 1 .leaf .leaf)) ∧ 40 ≤ b.1 ∧
        ∀ k ∈ inorder (Tree.node (50, 100) 2 (Tree.node (30, 40) 1 .leaf .leaf)
          (Tree.node (60, 10) 1 .leaf .leaf)), 40 ≤ k.1 →
            b.1 ≤ k.1 ∧ (b.1 = k.1 → b.2 ≤ k.2)) ∧
    (pop_best_fit (Tree.node (50, 100) 2 (Tree.node (30, 40) 1 .leaf .leaf)
      (Tree.node (60, 10) 1 .leaf .leaf)) 40).1 =
        best_fit (Tree.node (50, 100) 2 (Tree.node (30, 40) 1 .leaf .leaf)
          (Tree.node (60, 10) 1 .leaf .leaf)) 40) :=
  ⟨by decide, c1_best_fit_selects_minimum _ 40 (by decide)⟩

/-- C2: on a tree satisfying the BST order, correct cached heights and
the AVL balance bound, insert of a fresh key and delete of a present key
both return a tree satisfying the same three invariants. -/
theorem c2_avl_insert_delete_invariants (t : Tree) (k : Key)
    (hord : Ordered t) (hht : HtOk t) (hbal : Bal t) :
    (k ∉ inorder t →
      Ordered (insert t k) ∧ HtOk (insert t k) ∧ Bal (insert t k)) ∧
    (k ∈ inorder t →
      Ordered (delete t k) ∧ HtOk (delete t k) ∧ Bal (delete t k)) := by
  constructor
  · intro hfresh
    exact ⟨ordered_insert hord hfresh, (insert_avl t hht hbal k).1.1,
      (insert_avl t hht hbal k).1.2⟩
  · intro _
    exact ⟨ordered_delete hord, (delete_avl t hht hbal k).1.1,
      (delete_avl t hht hbal k).1.2⟩

/-- Witness for C2 at a concrete AVL tree, with a fresh key inserted and
a present key deleted. -/
theorem c2_witness :
    Ordered (Tree.node (50, 100) 2 (Tree.node (30, 40) 1 .leaf .leaf)
      (Tree.node (60, 10) 1 .leaf .leaf)) ∧
    HtOk (Tree.node (50, 100) 2 (Tree.node (30, 40) 1 .leaf .leaf)
      (Tree.node (60, 10) 1 .leaf .leaf)) ∧
    Bal (Tree.node (50, 100) 2 (Tree.node (30, 40) 1 .leaf .leaf)
      (Tree.node (60, 10) 1 .leaf .leaf)) ∧
    (((30, 40) ∉ inorder (Tree.node (50, 100) 2 (Tree.node (30, 40) 1 .leaf .leaf)
        (Tree.node (60, 10) 1 .leaf .leaf)) →
      Ordered (insert (Tree.node (50, 100) 2 (Tree.node (30, 40) 1 .leaf .leaf)
        (Tree.node (60, 10) 1 .leaf .leaf)) (30, 40)) ∧
      HtOk (insert (Tree.node (50, 100) 2 (Tree.node (30, 40) 1 .leaf .leaf)
        (Tree.node (60, 10) 1 .leaf .leaf)) (30, 40)) ∧
      Bal (insert (Tree.node (50, 100) 2 (Tree.node (30, 40) 1 .leaf .leaf)
        (Tree.node (60, 10) 1 .leaf .leaf)) (30, 40))) ∧
    ((30, 40) ∈ inorder (Tree.node (50, 100) 2 (Tree.node (30, 40) 1 .leaf .leaf)
        (Tree.node (60, 10) 1 .leaf .leaf)) →
      Ordered (delete (Tree.node (50, 100) 2 (Tree.node (30, 40) 1 .leaf .leaf)
        (Tree.node (60, 10) 1 .leaf .leaf)) (30, 40)) ∧
      HtOk (delete (Tree.node (50, 100) 2 (Tree.node (30, 40) 1 .leaf .leaf)
        (Tree.node (60, 10) 1 .leaf .leaf)) (30, 40)) ∧
      Bal (delete (Tree.node (50, 100) 2 (Tree.node (30, 40) 1 .leaf .leaf)
        (Tree.node (60, 10) 1 .leaf .leaf)) (30, 40)))) :=
  ⟨by decide, by decide, by decide,
    c2_avl_insert_delete_invariants _ (30, 40) (by decide) (by decide) (by decide)⟩

/-- C9: when no node of the tree has size at least s, pop_best_fit
returns null and leaves the root and the whole tree unchanged. -/
theorem c9_pop_best_fit_frame (t : Tree) (s : Nat)
    (h : ∀ k ∈ inorder t, k.1 < s) : pop_best_fit t s = (none, t) := by
  rw [pop_best_fit, best_fit, best_fitAux_none t none h]

/-- Witness for C9 at a concrete tree. -/
theorem c9_witness :
    (∀ k ∈ inorder (Tree.node (32, 100) 1 .leaf .leaf), k.1 < 64) ∧
    pop_best_fit (Tree.node (32, 100) 1 .leaf .leaf) 64 =
      (none, Tree.node (32, 100) 1 .leaf .leaf) :=
  ⟨by decide, c9_pop_best_fit_frame _ 64 (by decide)⟩

/-- C10: both rotations preserve the in-order key sequence (hence the
node set and the BST order), and when the required child is null, or the
tree is null, the tree is returned entirely unchanged. -/
theorem c10_rotations_preserve_inorder (t : Tree) :
    (inorder (rotate_left t) = inorder t ∧ inorder (rotate_right t) = inorder t) ∧
    (∀ (k : Key) (h : Nat) (l : Tree), rotate_left (.node k h l .leaf) = .node k h l .leaf) ∧
    (∀ (k : Key) (h : Nat) (r : Tree), rotate_right (.node k h .leaf r) = .node k h .leaf r) ∧
    rotate_left .leaf = .leaf ∧ rotate_right .leaf = .leaf :=
  ⟨⟨inorder_rotate_left t, inorder_rotate_right t⟩,
    fun _ _ _ => rfl, fun _ _ _ => rfl, rfl, rfl⟩

/-- C5 (code bug): my_malloc has no overflow check.  For the request
2^64 - 1 the aligned block size wraps around to 48 in size_t
arithmetic, so from the empty initial state the facade extends the heap
by 48 bytes and returns a payload pointer: the state changes and the
result is not null, against the out-of-memory contract of the spec. -/
theorem c5_overflow_returns_pointer :
    my_malloc (initHeap 0 10000) (2 ^ 64 - 1) =
      ({ lo := 0, blocks := [⟨48, true, List.replicate 32 0⟩], root := .leaf,
          brkLimit := 10000 }, some 8) ∧
    blockSizeReq (2 ^ 64 - 1) = 48 := by
  constructor
  · decide
  · decide

/-- C8 (code bug): merge_blocks computes get_prev before any in_heap
check, and for the first block of the heap that read falls below the
heap base.  After my_malloc(32) from the empty initial state the single
payload pointer is 8, my_free(8) is a valid call reaching merge_blocks,
and the previous-footer word read by get_prev is out of the heap range,
so the guarded read has no in-range branch to take. -/
theorem c8_merge_prev_read_out_of_range :
    (my_malloc (initHeap 0 10000) 32).2 = some 8 ∧
    validOp (my_malloc (initHeap 0 10000) 32).1 (.free 8) = true ∧
    merge_blocks_prev_read (my_malloc (initHeap 0 10000) 32).1 8 = none ∧
    ¬ in_heap (my_malloc (initHeap 0 10000) 32).1.lo
      (heapHi (my_malloc (initHeap 0 10000) 32).1) (get_prev_read_addr 8) := by
  refine ⟨by decide, by decide, by decide, ?_⟩
  intro h
  rcases h with ⟨h1, h2⟩
  revert h1
  decide

/-- C4 counterexample: the state reached by malloc(32); free(8) has one
free block of size 48 whose payload holds the stale node record.  Then
calloc(1, 1) takes that block whole (payload 32 bytes) and zeroes only
the single requested byte: the returned payload byte at offset 8, the
height field of the stale record, is 1 and not 0. -/
theorem c4_counterexample :
    (my_calloc (my_free (my_malloc (initHeap 0 10000) 32).1 8) 1 1).2 = some 8 ∧
    ((my_calloc (my_free (my_malloc (initHeap 0 10000) 32).1 8) 1 1).1.blocks.head?.map
      (fun b => b.bdata.get? 8)) = some (some 1) ∧
    Reachable (my_free (my_malloc (initHeap 0 10000) 32).1 8) := by
  refine ⟨by decide, by decide, ?_⟩
  have h2 : my_free (my_malloc (initHeap 0 10000) 32).1 8 =
      stepOp (stepOp (initHeap 0 10000) (.malloc 32)) (.free 8) := rfl
  rw [h2]
  exact Reachable.next _ _ (Reachable.next _ _ (Reachable.base 0 10000) (by decide)) (by decide)

theorem sizesOk_pos {bs : List Block} (hs : sizesOk bs) : ∀ b ∈ bs, 0 < b.bsize := by
  intro b hb
  have := hs b hb
  have h48 := MIN_BLOCK_SIZE_eq
  omega

theorem blockSizeReq_min (n : Nat) : MIN_BLOCK_SIZE ≤ blockSizeReq n :=
  Nat.le_max_left _ _

theorem blockSizeReq_mod (n : Nat) : blockSizeReq n % ALIGN = 0 := by
  rw [blockSizeReq]
  rcases Nat.le_total MIN_BLOCK_SIZE (ALIGN_UP ((HEADER_SIZE + FOOTER_SIZE + n) % U64)) with
    hc | hc
  · rw [Nat.max_eq_right hc]
    exact ALIGN_UP_mod _
  · rw [Nat.max_eq_left hc, MIN_BLOCK_SIZE_eq, ALIGN]

theorem writeNode_length {sz : Nat} {d : List Nat} (hd : 32 ≤ d.length) :
    (writeNode sz d).length = d.length := by
  simp [writeNode, le8, le4]
  omega

theorem chain_decomp {pre post : List Block} {b : Block}
    (h : noAdjFree (pre ++ b :: post)) :
    List.Chain' adjOk pre ∧ List.Chain' adjOk post ∧
      (∀ x ∈ pre.getLast?, adjOk x b) ∧ ∀ y ∈ post.head?, adjOk b y := by
  rw [noAdjFree, List.chain'_append] at h
  obtain ⟨h1, h2, h3⟩ := h
  rw [List.chain'_cons'] at h2
  exact ⟨h1, h2.2, fun x hx => h3 x hx b rfl, h2.1⟩

theorem chain_build {pre post mid : List Block}
    (h1 : List.Chain' adjOk pre) (h2 : List.Chain' adjOk post)
    (hm : List.Chain' adjOk mid)
    (hj1 : ∀ x ∈ pre.getLast?, ∀ y ∈ mid.head?, adjOk x y)
    (hj2 : ∀ x ∈ mid.getLast?, ∀ y ∈ post.head?, adjOk x y)
    (hmid : mid ≠ []) :
    noAdjFree (pre ++ (mid ++ post)) := by
  have hhead : (mid ++ post).head? = mid.head? := by
    cases mid with
    | nil => exact absurd rfl hmid
    | cons m ms => rfl
  rw [noAdjFree, List.chain'_append, List.chain'_append]
  refine ⟨h1, ⟨hm, h2, hj2⟩, ?_⟩
  intro x hx y hy
  rw [hhead] at hy
  exact hj1 x hx y hy

theorem allocate_heap_spec (h : Heap) (S : Nat) (hInv : Inv h)
    (hS : MIN_BLOCK_SIZE ≤ S) (hSm : S % ALIGN = 0) :
    Inv (allocate_heap h S).1 ∧ (allocate_heap h S).1.lo = h.lo ∧
    (allocate_heap h S).1.brkLimit = h.brkLimit ∧
    ((allocate_heap h S).2 = none → (allocate_heap h S).1 = h) ∧
    (∀ p, (allocate_heap h S).2 = some p →
      ∃ pre2 b2 post2, locate h.lo (allocate_heap h S).1.blocks p = some (pre2, b2, post2) ∧
        b2.balloc = true ∧ S ≤ b2.bsize) ∧
    (∀ p pre b post, locate h.lo h.blocks p = some (pre, b, post) → b.balloc = true →
      ∃ pre2 post2, locate h.lo (allocate_heap h S).1.blocks p = some (pre2, b, post2)) := by
  obtain ⟨hsz, hadj, hord, hmatch⟩ := hInv
  by_cases hroom : heapHi h + S ≤ h.brkLimit
  · have hm : allocate_heap h S =
        ({ h with blocks := h.blocks ++
            [⟨S, true, List.replicate (S - (HEADER_SIZE + FOOTER_SIZE)) 0⟩] },
          some (heapHi h + HEADER_SIZE)) := by
      rw [allocate_heap, if_pos hroom]
    rw [hm]
    have hent : entriesAux h.lo (h.blocks ++
        [⟨S, true, List.replicate (S - (HEADER_SIZE + FOOTER_SIZE)) 0⟩]) =
        entriesAux h.lo h.blocks := by
      rw [entriesAux_append, entriesAux_cons, entriesAux_nil]
      simp
    refine ⟨⟨?_, ?_, hord, ?_⟩, rfl, rfl, ?_, ?_, ?_⟩
    · intro b hb
      rcases List.mem_append.mp hb with hb1 | hb2
      · exact hsz b hb1
      · have hbeq : b = ⟨S, true, List.replicate (S - (HEADER_SIZE + FOOTER_SIZE)) 0⟩ := by
          simpa using hb2
        rw [hbeq]
        exact ⟨hS, hSm, by simp⟩
    · have := @chain_build h.blocks ([] : List Block)
        [⟨S, true, List.replicate (S - (HEADER_SIZE + FOOTER_SIZE)) 0⟩] hadj List.chain'_nil (List.chain'_singleton _)
        (fun x _ y hy => by
          rw [show ([⟨S, true, List.replicate (S - (HEADER_SIZE + FOOTER_SIZE)) 0⟩] :
            List Block).head? = some ⟨S, true, List.replicate (S - (HEADER_SIZE + FOOTER_SIZE)) 0⟩
            from rfl] at hy
          obtain rfl : (⟨S, true, List.replicate (S - (HEADER_SIZE + FOOTER_SIZE)) 0⟩ : Block) =
              y := by
            simpa using hy
          exact Or.inr rfl)
        (fun x _ y hy => by simp at hy) (by simp)
      simpa using this
    · constructor
      · intro k hk
        show k ∈ entriesAux h.lo _
        rw [hent]
        exact hmatch.1 k hk
      · intro k hk
        refine hmatch.2 k ?_
        show k ∈ entriesAux h.lo h.blocks
        rw [← hent]
        exact hk
    · intro hcontra
      simp at hcontra
    · intro p hp
      obtain rfl : heapHi h + HEADER_SIZE = p := by simpa using hp
      refine ⟨h.blocks, ⟨S, true, List.replicate (S - (HEADER_SIZE + FOOTER_SIZE)) 0⟩, [],
        ?_, rfl, le_refl S⟩
      have := locate_complete h.blocks h.lo
        ⟨S, true, List.replicate (S - (HEADER_SIZE + FOOTER_SIZE)) 0⟩ []
        (sizesOk_pos hsz)
      exact this
    · intro p pre b post hloc hal
      refine ⟨pre, post ++ [⟨S, true, List.replicate (S - (HEADER_SIZE + FOOTER_SIZE)) 0⟩], ?_⟩
      rw [locate_append h.blocks h.lo p
        [⟨S, true, List.replicate (S - (HEADER_SIZE + FOOTER_SIZE)) 0⟩], hloc]
  · have hm : allocate_heap h S = (h, none) := by rw [allocate_heap, if_neg hroom]
    rw [hm]
    refine ⟨⟨hsz, hadj, hord, hmatch⟩, rfl, rfl, fun _ => rfl, ?_, ?_⟩
    · intro p hp
      simp at hp
    · intro p pre b post hloc _
      exact ⟨pre, post, hloc⟩

theorem best_fit_some_facts {t : Tree} {s : Nat} {b : Key} (hord : Ordered t)
    (h : best_fit t s = some b) : b ∈ inorder t ∧ s ≤ b.1 := by
  rw [best_fit_eq_find hord] at h
  exact ⟨List.mem_of_find?_eq_some h, by simpa using List.find?_some h⟩

theorem locate_single {lo p : Nat} {b : Block} {a : List Block} {c : Block} {d : List Block}
    (h : locate lo [b] p = some (a, c, d)) : c = b := by
  obtain ⟨hdec, _⟩ := locate_spec [b] lo p a c d h
  cases a with
  | nil =>
    injection hdec with h1 h2
    exact h1.symm
  | cons x xs =>
    injection hdec with h1 h2
    exact absurd h2.symm (by simp)

theorem sizeSum_single (b : Block) : sizeSum [b] = b.bsize := by simp [sizeSum]

theorem sizeSum_pair (b1 b2 : Block) : sizeSum [b1, b2] = b1.bsize + b2.bsize := by
  simp [sizeSum]

theorem my_malloc_spec (h : Heap) (n : Nat) (hInv : Inv h) :
    Inv (my_malloc h n).1 ∧ (my_malloc h n).1.lo = h.lo ∧
    (my_malloc h n).1.brkLimit = h.brkLimit ∧
    ((my_malloc h n).2 = none → (my_malloc h n).1 = h) ∧
    (∀ p, (my_malloc h n).2 = some p →
      ∃ pre2 b2 post2, locate h.lo (my_malloc h n).1.blocks p = some (pre2, b2, post2) ∧
        b2.balloc = true ∧ blockSizeReq n ≤ b2.bsize) ∧
    (∀ p pre b post, locate h.lo h.blocks p = some (pre, b, post) → b.balloc = true →
      ∃ pre2 post2, locate h.lo (my_malloc h n).1.blocks p = some (pre2, b, post2)) := by
  obtain ⟨hsz, hadj, hord, hmatch⟩ := hInv
  rcases hpop : pop_best_fit h.root (blockSizeReq n) with ⟨ob, root2⟩
  cases ob with
  | none =>
    have hm : my_malloc h n = allocate_heap h (blockSizeReq n) := by
      simp only [my_malloc, hpop]
    rw [hm]
    exact allocate_heap_spec h _ ⟨hsz, hadj, hord, hmatch⟩ (blockSizeReq_min n)
      (blockSizeReq_mod n)
  | some bkey =>
    obtain ⟨hbf, hroot2⟩ := pop_best_fit_eq_some hpop
    subst hroot2
    have hfacts := best_fit_some_facts hord hbf
    have hkent : bkey ∈ entriesAux h.lo h.blocks := hmatch.1 bkey hfacts.1
    obtain ⟨pre, b, post, hdec, hbfree, hkeq⟩ := entriesAux_mem_decomp h.blocks h.lo bkey hkent
    obtain ⟨hk1, hk2⟩ : bkey.1 = b.bsize ∧ bkey.2 = h.lo + sizeSum pre + HEADER_SIZE := by
      rw [hkeq]
      exact ⟨rfl, rfl⟩
    have hpos : ∀ blk ∈ h.blocks, 0 < blk.bsize := sizesOk_pos hsz
    have hprepos : ∀ blk ∈ pre, 0 < blk.bsize := fun blk hb =>
      hpos blk (by rw [hdec]; exact List.mem_append.mpr (Or.inl hb))
    have hpostpos : ∀ blk ∈ post, 0 < blk.bsize := fun blk hb =>
      hpos blk (by rw [hdec]; exact List.mem_append.mpr (Or.inr (by simp [hb])))
    have hbsz := hsz b (by rw [hdec]; exact List.mem_append.mpr (Or.inr (by simp)))
    have hloc : locate h.lo h.blocks bkey.2 = some (pre, b, post) := by
      rw [hdec, hk2]
      exact locate_complete pre h.lo b post hprepos
    have hSle : blockSizeReq n ≤ bkey.1 := hfacts.2
    have h48 := MIN_BLOCK_SIZE_eq
    have hminS := blockSizeReq_min n
    have hchain := @chain_decomp pre post b (by rw [← hdec]; exact hadj)
    have hpreR := entriesAux_mem_range pre h.lo hprepos
    have hpostR := entriesAux_mem_range post (h.lo + sizeSum pre + b.bsize) hpostpos
    have hentold : freeEntries h =
        entriesAux h.lo pre ++
          (bkey :: entriesAux (h.lo + sizeSum pre + b.bsize) post) := by
      rw [freeEntries, hdec, entriesAux_append, entriesAux_cons, hbfree]
      rw [hkeq]
      simp
    by_cases hsplit : MIN_BLOCK_SIZE ≤ bkey.1 - blockSizeReq n
    · -- split case
      have hm : my_malloc h n =
          ({ h with
              root := insert (delete h.root bkey) (bkey.1 - blockSizeReq n, bkey.2 + blockSizeReq n),
              blocks := pre ++
                ⟨blockSizeReq n, true,
                  b.bdata.take (blockSizeReq n - (HEADER_SIZE + FOOTER_SIZE))⟩ ::
                ⟨bkey.1 - blockSizeReq n, false,
                  writeNode (bkey.1 - blockSizeReq n) (b.bdata.drop (blockSizeReq n))⟩ :: post },
            some bkey.2) := by
        simp only [my_malloc, hpop, hloc]
        rw [if_pos hsplit]
        simp only [split_block]
      rw [hm]
      have hrem48 : MIN_BLOCK_SIZE ≤ bkey.1 - blockSizeReq n := hsplit
      have hbig : blockSizeReq n + MIN_BLOCK_SIZE ≤ bkey.1 := by omega
      have hfreshkey :
          (bkey.1 - blockSizeReq n, bkey.2 + blockSizeReq n) ∉
            inorder (delete h.root bkey) := by
        intro hin
        rw [mem_inorder_delete hord] at hin
        obtain ⟨hin1, hne⟩ := hin
        have := hmatch.1 _ hin1
        rw [hentold] at this
        rcases List.mem_append.mp this with hc | hc
        · have := (hpreR _ hc).2
          simp at this
          omega
        · rcases List.mem_cons.mp hc with hc1 | hc2
          · have h2c := congrArg Prod.snd hc1
            simp at h2c
            omega
          · have := (hpostR _ hc2).1
            simp at this
            omega
      have hentnew : entriesAux h.lo (pre ++
          ⟨blockSizeReq n, true,
            b.bdata.take (blockSizeReq n - (HEADER_SIZE + FOOTER_SIZE))⟩ ::
          ⟨bkey.1 - blockSizeReq n, false,
            writeNode (bkey.1 - blockSizeReq n) (b.bdata.drop (blockSizeReq n))⟩ :: post) =
          entriesAux h.lo pre ++
            ((bkey.1 - blockSizeReq n, bkey.2 + blockSizeReq n) ::
              entriesAux (h.lo + sizeSum pre + b.bsize) post) := by
        rw [entriesAux_append, entriesAux_cons, entriesAux_cons]
        simp only [if_pos rfl]
        simp
        constructor
        · omega
        · rw [show h.lo + sizeSum pre + blockSizeReq n + (bkey.1 - blockSizeReq n) =
            h.lo + sizeSum pre + b.bsize by omega]
      refine ⟨⟨?_, ?_, ?_, ?_⟩, rfl, rfl, ?_, ?_, ?_⟩
      · intro blk hmem
        rcases List.mem_append.mp hmem with hb1 | hb2
        · exact hsz blk (by rw [hdec]; exact List.mem_append.mpr (Or.inl hb1))
        · rcases List.mem_cons.mp hb2 with hc | hc
          · rw [hc]
            refine ⟨hminS, blockSizeReq_mod n, ?_⟩
            show (b.bdata.take (blockSizeReq n - (HEADER_SIZE + FOOTER_SIZE))).length =
              blockSizeReq n - (HEADER_SIZE + FOOTER_SIZE)
            have hlen : b.bdata.length = b.bsize - (HEADER_SIZE + FOOTER_SIZE) := hbsz.2.2
            have hHF : HEADER_SIZE + FOOTER_SIZE = 16 := rfl
            rw [List.length_take]
            omega
          · rcases List.mem_cons.mp hc with hc2 | hc2
            · rw [hc2]
              refine ⟨hrem48, ?_, ?_⟩
              · show (bkey.1 - blockSizeReq n) % ALIGN = 0
                have hb16 : b.bsize % ALIGN = 0 := hbsz.2.1
                have hs16 : blockSizeReq n % ALIGN = 0 := blockSizeReq_mod n
                rw [ALIGN] at hb16 hs16 ⊢
                omega
              · show (writeNode (bkey.1 - blockSizeReq n)
                  (b.bdata.drop (blockSizeReq n))).length =
                  (bkey.1 - blockSizeReq n) - (HEADER_SIZE + FOOTER_SIZE)
                have hlen : b.bdata.length = b.bsize - (HEADER_SIZE + FOOTER_SIZE) := hbsz.2.2
                have hHF : HEADER_SIZE + FOOTER_SIZE = 16 := rfl
                have h32 : 32 ≤ (b.bdata.drop (blockSizeReq n)).length := by
                  rw [List.length_drop]
                  omega
                rw [writeNode_length h32, List.length_drop]
                omega
            · exact hsz blk (by rw [hdec]; exact List.mem_append.mpr (Or.inr (by simp [hc2])))
      · have := @chain_build pre post
          [⟨blockSizeReq n, true,
            b.bdata.take (blockSizeReq n - (HEADER_SIZE + FOOTER_SIZE))⟩,
            ⟨bkey.1 - blockSizeReq n, false,
              writeNode (bkey.1 - blockSizeReq n) (b.bdata.drop (blockSizeReq n))⟩]
          hchain.1 hchain.2.1
          (by
            rw [List.chain'_cons]
            exact ⟨Or.inl rfl, List.chain'_singleton _⟩)
          (by
            intro x hx y hy
            obtain rfl : (⟨blockSizeReq n, true,
                b.bdata.take (blockSizeReq n - (HEADER_SIZE + FOOTER_SIZE))⟩ : Block) = y := by
              simpa using hy
            exact Or.inr rfl)
          (by
            intro x hx y hy
            have := hchain.2.2.2 y hy
            rcases this with hq | hq
            · rw [hbfree] at hq
              exact absurd hq (by simp)
            · exact Or.inr hq)
          (by simp)
        simpa using this
      · exact ordered_insert (ordered_delete hord) hfreshkey
      · constructor
        · intro k hk
          rw [inorder_insert] at hk
          show k ∈ entriesAux h.lo _
          rw [hentnew]
          rcases hk with hk | hk
          · exact List.mem_append.mpr (Or.inr (List.mem_cons.mpr (Or.inl hk)))
          · rw [mem_inorder_delete hord] at hk
            obtain ⟨hk1x, hkne⟩ := hk
            have := hmatch.1 _ hk1x
            rw [hentold] at this
            rcases List.mem_append.mp this with hc | hc
            · exact List.mem_append.mpr (Or.inl hc)
            · rcases List.mem_cons.mp hc with hc1 | hc2
              · exact absurd hc1 hkne
              · exact List.mem_append.mpr (Or.inr (List.mem_cons.mpr (Or.inr hc2)))
        · intro k hk
          simp only [freeEntries] at hk
          rw [hentnew] at hk
          rw [inorder_insert]
          rcases List.mem_append.mp hk with hc | hc
          · refine Or.inr ?_
            rw [mem_inorder_delete hord]
            refine ⟨hmatch.2 k (by rw [hentold]; exact List.mem_append.mpr (Or.inl hc)), ?_⟩
            intro hkeq2
            have := (hpreR _ hc).2
            rw [hkeq2] at this
            omega
          · rcases List.mem_cons.mp hc with hc1 | hc2
            · exact Or.inl hc1
            · refine Or.inr ?_
              rw [mem_inorder_delete hord]
              refine ⟨hmatch.2 k (by
                rw [hentold]
                exact List.mem_append.mpr (Or.inr (List.mem_cons.mpr (Or.inr hc2)))), ?_⟩
              intro hkeq2
              have := (hpostR _ hc2).1
              rw [hkeq2] at this
              omega
      · intro hcontra
        simp at hcontra
      · intro p hp
        obtain rfl : bkey.2 = p := by simpa using hp
        refine ⟨pre, ⟨blockSizeReq n, true,
          b.bdata.take (blockSizeReq n - (HEADER_SIZE + FOOTER_SIZE))⟩,
          ⟨bkey.1 - blockSizeReq n, false,
            writeNode (bkey.1 - blockSizeReq n) (b.bdata.drop (blockSizeReq n))⟩ :: post,
          ?_, rfl, le_refl _⟩
        rw [hk2]
        exact locate_complete pre h.lo _ _ hprepos
      · intro p' pre' b' post' hloc' hal'
        rw [hdec] at hloc'
        have hfr := @locate_replace_frame _ _ pre [b]
          [⟨blockSizeReq n, true,
            b.bdata.take (blockSizeReq n - (HEADER_SIZE + FOOTER_SIZE))⟩,
            ⟨bkey.1 - blockSizeReq n, false,
              writeNode (bkey.1 - blockSizeReq n) (b.bdata.drop (blockSizeReq n))⟩]
          post _ _ _
          (by rw [sizeSum_single, sizeSum_pair]; simp; omega)
          (by
            intro blk hblk
            rcases List.mem_cons.mp hblk with hc | hc
            · rw [hc]; simp; omega
            · rcases List.mem_cons.mp hc with hc2 | hc2
              · rw [hc2]; simp; omega
              · simp at hc2)
          hloc'
        rcases hfr with ⟨a, c, d, hlc, hbc⟩ | ⟨pre2, post2, hlc, hsum2⟩
        · rw [hbc, locate_single hlc, hbfree] at hal'
          exact absurd hal' (by simp)
        · exact ⟨pre2, post2, hlc⟩
    · -- take-whole case
      have hm : my_malloc h n =
          ({ h with
              root := delete h.root bkey,
              blocks := pre ++ ⟨bkey.1, true, b.bdata⟩ :: post },
            some bkey.2) := by
        simp only [my_malloc, hpop, hloc]
        rw [if_neg hsplit]
      rw [hm]
      have hentnew : entriesAux h.lo (pre ++ ⟨bkey.1, true, b.bdata⟩ :: post) =
          entriesAux h.lo pre ++ entriesAux (h.lo + sizeSum pre + b.bsize) post := by
        rw [entriesAux_append, entriesAux_cons]
        simp only [if_pos rfl]
        simp
        rw [show h.lo + sizeSum pre + bkey.1 = h.lo + sizeSum pre + b.bsize by omega]
      refine ⟨⟨?_, ?_, ?_, ?_⟩, rfl, rfl, ?_, ?_, ?_⟩
      · intro blk hmem
        rcases List.mem_append.mp hmem with hb1 | hb2
        · exact hsz blk (by rw [hdec]; exact List.mem_append.mpr (Or.inl hb1))
        · rcases List.mem_cons.mp hb2 with hc | hc
          · rw [hc]
            refine ⟨?_, ?_, ?_⟩
            · show MIN_BLOCK_SIZE ≤ bkey.1
              rw [hk1]
              exact hbsz.1
            · show bkey.1 % ALIGN = 0
              rw [hk1]
              exact hbsz.2.1
            · show b.bdata.length = bkey.1 - (HEADER_SIZE + FOOTER_SIZE)
              rw [hk1]
              exact hbsz.2.2
          · exact hsz blk (by rw [hdec]; exact List.mem_append.mpr (Or.inr (by simp [hc])))
      · have := @chain_build pre post [⟨bkey.1, true, b.bdata⟩]
          hchain.1 hchain.2.1 (List.chain'_singleton _)
          (by
            intro x hx y hy
            obtain rfl : (⟨bkey.1, true, b.bdata⟩ : Block) = y := by simpa using hy
            exact Or.inr rfl)
          (by
            intro x hx y hy
            obtain rfl : (⟨bkey.1, true, b.bdata⟩ : Block) = x := by simpa using hx
            exact Or.inl rfl)
          (by simp)
        simpa using this
      · exact ordered_delete hord
      · constructor
        · intro k hk
          rw [mem_inorder_delete hord] at hk
          obtain ⟨hk1x, hkne⟩ := hk
          have := hmatch.1 _ hk1x
          rw [hentold] at this
          show k ∈ entriesAux h.lo _
          rw [hentnew]
          rcases List.mem_append.mp this with hc | hc
          · exact List.mem_append.mpr (Or.inl hc)
          · rcases List.mem_cons.mp hc with hc1 | hc2
            · exact absurd hc1 hkne
            · exact List.mem_append.mpr (Or.inr hc2)
        · intro k hk
          simp only [freeEntries] at hk
          rw [hentnew] at hk
          rw [mem_inorder_delete hord]
          rcases List.mem_append.mp hk with hc | hc
          · refine ⟨hmatch.2 k (by rw [hentold]; exact List.mem_append.mpr (Or.inl hc)), ?_⟩
            intro hkeq2
            have := (hpreR _ hc).2
            rw [hkeq2] at this
            omega
          · refine ⟨hmatch.2 k (by
              rw [hentold]
              exact List.mem_append.mpr (Or.inr (List.mem_cons.mpr (Or.inr hc)))), ?_⟩
            intro hkeq2
            have := (hpostR _ hc).1
            rw [hkeq2] at this
            have hbpos : 0 < b.bsize := by omega
            omega
      · intro hcontra
        simp at hcontra
      · intro p hp
        obtain rfl : bkey.2 = p := by simpa using hp
        refine ⟨pre, ⟨bkey.1, true, b.bdata⟩, post, ?_, rfl, hSle⟩
        rw [hk2]
        exact locate_complete pre h.lo _ _ hprepos
      · intro p' pre' b' post' hloc' hal'
        rw [hdec] at hloc'
        have hfr := @locate_replace_frame _ _ pre [b] [⟨bkey.1, true, b.bdata⟩] post _ _ _
          (by rw [sizeSum_single, sizeSum_single]; simp; omega)
          (by
            intro blk hblk
            obtain rfl : blk = (⟨bkey.1, true, b.bdata⟩ : Block) := by simpa using hblk
            show 0 < bkey.1
            omega)
          hloc'
        rcases hfr with ⟨a, c, d, hlc, hbc⟩ | ⟨pre2, post2, hlc, hsum2⟩
        · rw [hbc, locate_single hlc, hbfree] at hal'
          exact absurd hal' (by simp)
        · exact ⟨pre2, post2, hlc⟩

theorem le8_length (v : Nat) : (le8 v).length = 8 := rfl

theorem prev_free_chk_false {pre : List Block} (h : prev_free_chk pre = false) :
    ∀ x ∈ pre.getLast?, x.balloc = true := by
  intro x hx
  rw [prev_free_chk] at h
  cases hl : pre.getLast? with
  | none => rw [hl] at hx; simp at hx
  | some pb =>
    rw [hl] at h hx
    obtain rfl : pb = x := by simpa using hx
    simpa using h

theorem prev_free_chk_true {pre : List Block} (h : prev_free_chk pre = true) :
    ∃ pb, pre.getLast? = some pb ∧ pb.balloc = false := by
  rw [prev_free_chk] at h
  cases hl : pre.getLast? with
  | none => rw [hl] at h; simp at h
  | some pb =>
    rw [hl] at h
    exact ⟨pb, rfl, by simpa using h⟩

theorem next_free_chk_false {post : List Block} (h : next_free_chk post = false) :
    ∀ y ∈ post.head?, y.balloc = true := by
  intro y hy
  rw [next_free_chk] at h
  cases hl : post.head? with
  | none => rw [hl] at hy; simp at hy
  | some nb =>
    rw [hl] at h hy
    obtain rfl : nb = y := by simpa using hy
    simpa using h

theorem next_free_chk_true {post : List Block} (h : next_free_chk post = true) :
    ∃ nb, post.head? = some nb ∧ nb.balloc = false := by
  rw [next_free_chk] at h
  cases hl : post.head? with
  | none => rw [hl] at h; simp at h
  | some nb =>
    rw [hl] at h
    exact ⟨nb, rfl, by simpa using h⟩

theorem getLast?_decomp : ∀ {l : List Block} {x : Block}, l.getLast? = some x →
    l.dropLast ++ [x] = l := by
  intro l
  induction l with
  | nil => intro x h; simp at h
  | cons a as ih =>
    intro x h
    cases as with
    | nil =>
      obtain rfl : a = x := by simpa using h
      rfl
    | cons b bs =>
      have h2 : (b :: bs).getLast? = some x := by
        rw [← h]
        rfl
      have h3 := ih h2
      show a :: ((b :: bs).dropLast ++ [x]) = a :: b :: bs
      rw [h3]

theorem head?_decomp {l : List Block} {x : Block} (h : l.head? = some x) :
    ∃ tl, l = x :: tl := by
  cases l with
  | nil => simp at h
  | cons a as =>
    obtain rfl : a = x := by simpa using h
    exact ⟨as, rfl⟩

/-- Rebuilding the heap after a coalesce: the merged free block, carrying
a fresh node record, sits between allocated (or absent) neighbors, and
its key is inserted into an index that matched exactly the surrounding
free entries. -/
theorem inv_rebuild (lo brk : Nat) (root2 : Tree) (pre2 post2 : List Block)
    (S : Nat) (dat : List Nat)
    (hszp : ∀ blk ∈ pre2, MIN_BLOCK_SIZE ≤ blk.bsize ∧ blk.bsize % ALIGN = 0 ∧
      blk.bdata.length = blk.bsize - (HEADER_SIZE + FOOTER_SIZE))
    (hszq : ∀ blk ∈ post2, MIN_BLOCK_SIZE ≤ blk.bsize ∧ blk.bsize % ALIGN = 0 ∧
      blk.bdata.length = blk.bsize - (HEADER_SIZE + FOOTER_SIZE))
    (hS48 : MIN_BLOCK_SIZE ≤ S) (hS16 : S % ALIGN = 0)
    (hdatlen : dat.length = S - (HEADER_SIZE + FOOTER_SIZE))
    (hcp : List.Chain' adjOk pre2) (hcq : List.Chain' adjOk post2)
    (hlast : ∀ x ∈ pre2.getLast?, x.balloc = true)
    (hhead : ∀ y ∈ post2.head?, y.balloc = true)
    (hord2 : Ordered root2)
    (hiff : ∀ k, k ∈ inorder root2 ↔
      k ∈ entriesAux lo pre2 ++ entriesAux (lo + sizeSum pre2 + S) post2) :
    Inv ⟨lo, pre2 ++ ⟨S, false, writeNode S dat⟩ :: post2,
      insert root2 (S, lo + sizeSum pre2 + HEADER_SIZE), brk⟩ := by
  have h48 := MIN_BLOCK_SIZE_eq
  have hHF : HEADER_SIZE + FOOTER_SIZE = 16 := rfl
  have hH : HEADER_SIZE = 8 := rfl
  have hppos : ∀ blk ∈ pre2, 0 < blk.bsize := fun blk hb => by
    have := (hszp blk hb).1
    omega
  have hqpos : ∀ blk ∈ post2, 0 < blk.bsize := fun blk hb => by
    have := (hszq blk hb).1
    omega
  have hpreR := entriesAux_mem_range pre2 lo hppos
  have hpostR := entriesAux_mem_range post2 (lo + sizeSum pre2 + S) hqpos
  have hfresh : (S, lo + sizeSum pre2 + HEADER_SIZE) ∉ inorder root2 := by
    intro hin
    rcases List.mem_append.mp ((hiff _).mp hin) with hc | hc
    · have := (hpreR _ hc).2
      simp at this
    · have := (hpostR _ hc).1
      simp at this
      omega
  have hentnew : entriesAux lo (pre2 ++ ⟨S, false, writeNode S dat⟩ :: post2) =
      entriesAux lo pre2 ++ ((S, lo + sizeSum pre2 + HEADER_SIZE) ::
        entriesAux (lo + sizeSum pre2 + S) post2) := by
    rw [entriesAux_append, entriesAux_cons]
    simp
  refine ⟨?_, ?_, ?_, ?_, ?_⟩
  · intro blk hmem
    rcases List.mem_append.mp hmem with hb1 | hb2
    · exact hszp blk hb1
    · rcases List.mem_cons.mp hb2 with hc | hc
      · rw [hc]
        refine ⟨hS48, hS16, ?_⟩
        show (writeNode S dat).length = S - (HEADER_SIZE + FOOTER_SIZE)
        have h32 : 32 ≤ dat.length := by omega
        rw [writeNode_length h32, hdatlen]
      · exact hszq blk hc
  · have := @chain_build pre2 post2 [⟨S, false, writeNode S dat⟩] hcp hcq (List.chain'_singleton _)
      (fun x hx y _ => Or.inl (hlast x hx))
      (fun x _ y hy => Or.inr (hhead y hy))
      (by simp)
    simpa using this
  · exact ordered_insert hord2 hfresh
  · intro k hk
    show k ∈ entriesAux lo _
    rw [hentnew]
    rcases (inorder_insert root2 _ k).mp hk with rfl | hk2
    · exact List.mem_append.mpr (Or.inr (by simp))
    · rcases List.mem_append.mp ((hiff k).mp hk2) with hc | hc
      · exact List.mem_append.mpr (Or.inl hc)
      · exact List.mem_append.mpr (Or.inr (List.mem_cons.mpr (Or.inr hc)))
  · intro k hk
    have hk2 : k ∈ entriesAux lo (pre2 ++ ⟨S, false, writeNode S dat⟩ :: post2) := hk
    rw [hentnew] at hk2
    rw [inorder_insert]
    rcases List.mem_append.mp hk2 with hc | hc
    · exact Or.inr ((hiff k).mpr (List.mem_append.mpr (Or.inl hc)))
    · rcases List.mem_cons.mp hc with hc1 | hc2
      · exact Or.inl hc1
      · exact Or.inr ((hiff k).mpr (List.mem_append.mpr (Or.inr hc2)))

/-- C6: realloc identity on small shrink.  For an allocated block of
size S_old (minimum-sized, aligned, addressable) and a new payload that
fits in the old block with a would-be remainder below the minimum block
size, my_realloc returns the same pointer and the whole state, in
particular the block and both its boundary tags, is unchanged. -/
theorem c6_realloc_small_shrink_identity (h : Heap) (p n : Nat)
    (pre : List Block) (b : Block) (post : List Block)
    (hp : p ≠ 0) (hn : n ≠ 0)
    (hloc : locate h.lo h.blocks p = some (pre, b, post))
    (hal : b.balloc = true)
    (hmin : MIN_BLOCK_SIZE ≤ b.bsize) (hmod : b.bsize % ALIGN = 0) (hU : b.bsize < U64)
    (hle : n ≤ b.bsize - (HEADER_SIZE + FOOTER_SIZE))
    (hrem : b.bsize - max MIN_BLOCK_SIZE (ALIGN_UP ((n + HEADER_SIZE + FOOTER_SIZE) % U64))
      < MIN_BLOCK_SIZE) :
    my_realloc h p n = (h, some p) := by
  have h48 : MIN_BLOCK_SIZE = 48 := MIN_BLOCK_SIZE_eq
  have hH : HEADER_SIZE = 8 := rfl
  have hF : FOOTER_SIZE = 8 := rfl
  have hsum : n + HEADER_SIZE + FOOTER_SIZE ≤ b.bsize := by omega
  have hmodU : (n + HEADER_SIZE + FOOTER_SIZE) % U64 = n + HEADER_SIZE + FOOTER_SIZE :=
    Nat.mod_eq_of_lt (lt_of_le_of_lt hsum hU)
  have halle : ALIGN_UP (n + HEADER_SIZE + FOOTER_SIZE) ≤ b.bsize := ALIGN_UP_le hsum hmod hU
  have hreq : max MIN_BLOCK_SIZE (ALIGN_UP ((n + HEADER_SIZE + FOOTER_SIZE) % U64)) ≤
      b.bsize := by
    rw [hmodU]
    exact max_le (by omega) halle
  rw [my_realloc, if_neg hp, if_neg hn]
  simp only [hloc]
  rw [if_pos hreq, if_pos hrem]

/-- Witness for C6 at a concrete heap with one allocated block of size
64 shrunk to payload 40. -/
theorem c6_witness :
    ((8 : Nat) ≠ 0) ∧ ((40 : Nat) ≠ 0) ∧
    locate (Heap.mk 0 [⟨64, true, List.replicate 48 7⟩] .leaf 1000).lo
      (Heap.mk 0 [⟨64, true, List.replicate 48 7⟩] .leaf 1000).blocks 8 =
      some ([], ⟨64, true, List.replicate 48 7⟩, []) ∧
    (Block.mk 64 true (List.replicate 48 7)).balloc = true ∧
    MIN_BLOCK_SIZE ≤ (Block.mk 64 true (List.replicate 48 7)).bsize ∧
    (Block.mk 64 true (List.replicate 48 7)).bsize % ALIGN = 0 ∧
    (Block.mk 64 true (List.replicate 48 7)).bsize < U64 ∧
    (40 : Nat) ≤ (Block.mk 64 true (List.replicate 48 7)).bsize - (HEADER_SIZE + FOOTER_SIZE) ∧
    (Block.mk 64 true (List.replicate 48 7)).bsize -
      max MIN_BLOCK_SIZE (ALIGN_UP ((40 + HEADER_SIZE + FOOTER_SIZE) % U64)) < MIN_BLOCK_SIZE ∧
    my_realloc (Heap.mk 0 [⟨64, true, List.replicate 48 7⟩] .leaf 1000) 8 40 =
      (Heap.mk 0 [⟨64, true, List.replicate 48 7⟩] .leaf 1000, some 8) :=
  ⟨by decide, by decide, by decide, by decide, by decide, by decide, by decide, by decide,
    by decide,
    c6_realloc_small_shrink_identity (Heap.mk 0 [⟨64, true, List.replicate 48 7⟩] .leaf 1000)
      8 40 [] (Block.mk 64 true (List.replicate 48 7)) [] (by decide) (by decide) (by decide)
      (by decide) (by decide) (by decide) (by decide) (by decide) (by decide)⟩

/-- Core invariant preservation of my_free at a located block: the tag
rewrite, the coalescing of free neighbors and the index update restore
the full invariant from the structure around the block, whether or not
the freed block itself was reflected in the index. -/
theorem my_free_core (h : Heap) (p : Nat) (pre : List Block) (b : Block) (post : List Block)
    (hp : ¬ p = 0)
    (hloc : locate h.lo h.blocks p = some (pre, b, post))
    (hsz : sizesOk h.blocks)
    (hcp : List.Chain' adjOk pre) (hcq : List.Chain' adjOk post)
    (hord : Ordered h.root)
    (hiff : ∀ k, k ∈ inorder h.root ↔
      k ∈ entriesAux h.lo pre ++ entriesAux (h.lo + sizeSum pre + b.bsize) post) :
    Inv (my_free h p) ∧ (my_free h p).lo = h.lo ∧ (my_free h p).brkLimit = h.brkLimit := by
  obtain ⟨hdec, hpeq⟩ := locate_spec h.blocks h.lo p pre b post hloc
  have h48 := MIN_BLOCK_SIZE_eq
  have hHF : HEADER_SIZE + FOOTER_SIZE = 16 := rfl
  have hH : HEADER_SIZE = 8 := rfl
  have hbsz := hsz b (by rw [hdec]; exact List.mem_append.mpr (Or.inr (by simp)))
  have hb1 := hbsz.1
  have hszp : ∀ blk ∈ pre, MIN_BLOCK_SIZE ≤ blk.bsize ∧ blk.bsize % ALIGN = 0 ∧
      blk.bdata.length = blk.bsize - (HEADER_SIZE + FOOTER_SIZE) := fun blk hb =>
    hsz blk (by rw [hdec]; exact List.mem_append.mpr (Or.inl hb))
  have hszq : ∀ blk ∈ post, MIN_BLOCK_SIZE ≤ blk.bsize ∧ blk.bsize % ALIGN = 0 ∧
      blk.bdata.length = blk.bsize - (HEADER_SIZE + FOOTER_SIZE) := fun blk hb =>
    hsz blk (by rw [hdec]; exact List.mem_append.mpr (Or.inr (by simp [hb])))
  have hppos : ∀ blk ∈ pre, 0 < blk.bsize := fun blk hb => by
    have := (hszp blk hb).1
    omega
  have hqpos : ∀ blk ∈ post, 0 < blk.bsize := fun blk hb => by
    have := (hszq blk hb).1
    omega
  cases hpf : prev_free_chk pre with
  | false =>
    cases hnf : next_free_chk post with
    | false =>
      have hmg : merge_blocks { h with blocks := pre ++ ⟨b.bsize, false, b.bdata⟩ :: post }
          pre ⟨b.bsize, false, b.bdata⟩ post p =
          ({ h with blocks := pre ++ ⟨b.bsize, false, b.bdata⟩ :: post },
            (pre, ⟨b.bsize, false, b.bdata⟩, post), p) := by
        rw [merge_blocks, if_pos (by rw [hpf, hnf]; rfl)]
      have hm : my_free h p =
          ⟨h.lo, pre ++ ⟨b.bsize, false, writeNode b.bsize b.bdata⟩ :: post,
            insert h.root (b.bsize, p), h.brkLimit⟩ := by
        rw [my_free, if_neg hp, hloc]
        simp only [hmg]
      rw [hpeq] at hm ⊢
      rw [hm]
      exact ⟨inv_rebuild h.lo h.brkLimit h.root pre post b.bsize b.bdata hszp hszq
        hbsz.1 hbsz.2.1 hbsz.2.2 hcp hcq (prev_free_chk_false hpf)
        (next_free_chk_false hnf) hord hiff, rfl, rfl⟩
    | true =>
      obtain ⟨nb, hheadq, hnbfree⟩ := next_free_chk_true hnf
      obtain ⟨tl, rfl⟩ := head?_decomp hheadq
      have hnbsz := hszq nb (by simp)
      have hnb1 := hnbsz.1
      have hszt : ∀ blk ∈ tl, MIN_BLOCK_SIZE ≤ blk.bsize ∧ blk.bsize % ALIGN = 0 ∧
          blk.bdata.length = blk.bsize - (HEADER_SIZE + FOOTER_SIZE) := fun blk hb =>
        hszq blk (by simp [hb])
      have htpos : ∀ blk ∈ tl, 0 < blk.bsize := fun blk hb => hqpos blk (by simp [hb])
      have hentpost : entriesAux (h.lo + sizeSum pre + b.bsize) (nb :: tl) =
          (nb.bsize, h.lo + sizeSum pre + b.bsize + HEADER_SIZE) ::
            entriesAux (h.lo + sizeSum pre + b.bsize + nb.bsize) tl := by
        rw [entriesAux_cons, hnbfree]
        simp
      have hkn : p + b.bsize = h.lo + sizeSum pre + b.bsize + HEADER_SIZE := by omega
      have hpreR := entriesAux_mem_range pre h.lo hppos
      have htlR := entriesAux_mem_range tl (h.lo + sizeSum pre + b.bsize + nb.bsize) htpos
      have hoff : h.lo + sizeSum pre + (b.bsize + nb.bsize) =
          h.lo + sizeSum pre + b.bsize + nb.bsize := by omega
      have hiff2 : ∀ k, k ∈ inorder (delete h.root
          (nb.bsize, h.lo + sizeSum pre + b.bsize + HEADER_SIZE)) ↔
          k ∈ entriesAux h.lo pre ++
            entriesAux (h.lo + sizeSum pre + (b.bsize + nb.bsize)) tl := by
        intro k
        rw [mem_inorder_delete hord, hiff k, hentpost, hoff]
        constructor
        · rintro ⟨hmem, hne⟩
          rcases List.mem_append.mp hmem with hc | hc
          · exact List.mem_append.mpr (Or.inl hc)
          · rcases List.mem_cons.mp hc with hc1 | hc2
            · exact absurd hc1 hne
            · exact List.mem_append.mpr (Or.inr hc2)
        · intro hmem
          refine ⟨?_, ?_⟩
          · rcases List.mem_append.mp hmem with hc | hc
            · exact List.mem_append.mpr (Or.inl hc)
            · exact List.mem_append.mpr (Or.inr (List.mem_cons.mpr (Or.inr hc)))
          · intro hkeq
            rcases List.mem_append.mp hmem with hc | hc
            · have := (hpreR _ hc).2
              rw [hkeq] at this
              simp at this
            · have := (htlR _ hc).1
              rw [hkeq] at this
              simp at this
              omega
      rw [List.chain'_cons'] at hcq
      have hheadt : ∀ y ∈ tl.head?, y.balloc = true := by
        intro y hy
        rcases hcq.1 y hy with hna | hya
        · rw [hnbfree] at hna
          exact absurd hna (by simp)
        · exact hya
      have hS48 : MIN_BLOCK_SIZE ≤ b.bsize + nb.bsize := by omega
      have hS16 : (b.bsize + nb.bsize) % ALIGN = 0 := by
        have h1 := hbsz.2.1
        have h2 := hnbsz.2.1
        rw [ALIGN] at h1 h2 ⊢
        omega
      have hdatlen : (b.bdata ++ le8 b.bsize ++ le8 nb.bsize ++ nb.bdata).length =
          (b.bsize + nb.bsize) - (HEADER_SIZE + FOOTER_SIZE) := by
        have h1 := hbsz.2.2
        have h2 := hnbsz.2.2
        simp [le8_length]
        omega
      have hmg : merge_blocks { h with blocks := pre ++ ⟨b.bsize, false, b.bdata⟩ :: nb :: tl }
          pre ⟨b.bsize, false, b.bdata⟩ (nb :: tl) p =
          ({ h with
              blocks := pre ++ ⟨b.bsize + nb.bsize, false,
                b.bdata ++ le8 b.bsize ++ le8 nb.bsize ++ nb.bdata⟩ :: tl,
              root := delete h.root (nb.bsize, p + b.bsize) },
            (pre, ⟨b.bsize + nb.bsize, false,
              b.bdata ++ le8 b.bsize ++ le8 nb.bsize ++ nb.bdata⟩, tl), p) := by
        rw [merge_blocks, if_neg (by rw [hnf]; simp), if_neg (by rw [hpf]; simp),
          if_pos (by rw [hpf, hnf]; rfl)]
        rfl
      have hm : my_free h p = ⟨h.lo,
          pre ++ ⟨b.bsize + nb.bsize, false,
            writeNode (b.bsize + nb.bsize)
              (b.bdata ++ le8 b.bsize ++ le8 nb.bsize ++ nb.bdata)⟩ :: tl,
          insert (delete h.root (nb.bsize, p + b.bsize)) (b.bsize + nb.bsize, p),
          h.brkLimit⟩ := by
        rw [my_free, if_neg hp, hloc]
        simp only [hmg]
      rw [hkn] at hm
      rw [hpeq] at hm ⊢
      rw [hm]
      exact ⟨inv_rebuild h.lo h.brkLimit _ pre tl (b.bsize + nb.bsize) _ hszp hszt
        hS48 hS16 hdatlen hcp hcq.2 (prev_free_chk_false hpf) hheadt
        (ordered_delete hord) hiff2, rfl, rfl⟩
  | true =>
    obtain ⟨pb, hlast, hpbfree⟩ := prev_free_chk_true hpf
    have hpre : pre.dropLast ++ [pb] = pre := getLast?_decomp hlast
    have hlastD : lastD pre = pb := by rw [lastD, hlast]; rfl
    have hpbmem : pb ∈ pre := by
      have hx : pb ∈ pre.dropLast ++ [pb] := by simp
      rw [hpre] at hx
      exact hx
    have hpbsz := hszp pb hpbmem
    have hpb1 := hpbsz.1
    have hsd : sizeSum pre = sizeSum pre.dropLast + pb.bsize := by
      conv_lhs => rw [← hpre]
      rw [sizeSum_append, sizeSum_single]
    have hq : p - pb.bsize = h.lo + sizeSum pre.dropLast + HEADER_SIZE := by omega
    have hszdl : ∀ blk ∈ pre.dropLast, MIN_BLOCK_SIZE ≤ blk.bsize ∧
        blk.bsize % ALIGN = 0 ∧
        blk.bdata.length = blk.bsize - (HEADER_SIZE + FOOTER_SIZE) := fun blk hb =>
      hszp blk ((List.dropLast_sublist pre).subset hb)
    have hdlpos : ∀ blk ∈ pre.dropLast, 0 < blk.bsize := fun blk hb =>
      hppos blk ((List.dropLast_sublist pre).subset hb)
    have hentpre : entriesAux h.lo pre = entriesAux h.lo pre.dropLast ++
        [(pb.bsize, h.lo + sizeSum pre.dropLast + HEADER_SIZE)] := by
      conv_lhs => rw [← hpre]
      rw [entriesAux_append, entriesAux_cons, entriesAux_nil, hpbfree]
      simp
    have hdlR := entriesAux_mem_range pre.dropLast h.lo hdlpos
    have hcdl : List.Chain' adjOk (pre.dropLast ++ [pb]) := by rw [hpre]; exact hcp
    rw [List.chain'_append] at hcdl
    have hlastdl : ∀ x ∈ pre.dropLast.getLast?, x.balloc = true := by
      intro x hx
      rcases hcdl.2.2 x hx pb (by simp) with hxa | hpa
      · exact hxa
      · rw [hpbfree] at hpa
        exact absurd hpa (by simp)
    cases hnf : next_free_chk post with
    | false =>
      have hpostR := entriesAux_mem_range post (h.lo + sizeSum pre + b.bsize) hqpos
      have hoff : h.lo + sizeSum pre.dropLast + (pb.bsize + b.bsize) =
          h.lo + sizeSum pre + b.bsize := by omega
      have hiff2 : ∀ k, k ∈ inorder (delete h.root
          (pb.bsize, h.lo + sizeSum pre.dropLast + HEADER_SIZE)) ↔
          k ∈ entriesAux h.lo pre.dropLast ++
            entriesAux (h.lo + sizeSum pre.dropLast + (pb.bsize + b.bsize)) post := by
        intro k
        rw [mem_inorder_delete hord, hiff k, hentpre, hoff]
        constructor
        · rintro ⟨hmem, hne⟩
          rcases List.mem_append.mp hmem with hc | hc
          · rcases List.mem_append.mp hc with hc1 | hc2
            · exact List.mem_append.mpr (Or.inl hc1)
            · obtain rfl : k = (pb.bsize, h.lo + sizeSum pre.dropLast + HEADER_SIZE) := by
                simpa using hc2
              exact absurd rfl hne
          · exact List.mem_append.mpr (Or.inr hc)
        · intro hmem
          refine ⟨?_, ?_⟩
          · rcases List.mem_append.mp hmem with hc | hc
            · exact List.mem_append.mpr (Or.inl (List.mem_append.mpr (Or.inl hc)))
            · exact List.mem_append.mpr (Or.inr hc)
          · intro hkeq
            rcases List.mem_append.mp hmem with hc | hc
            · have := (hdlR _ hc).2
              rw [hkeq] at this
              simp at this
            · have := (hpostR _ hc).1
              rw [hkeq] at this
              simp at this
              omega
      have hS48 : MIN_BLOCK_SIZE ≤ pb.bsize + b.bsize := by omega
      have hS16 : (pb.bsize + b.bsize) % ALIGN = 0 := by
        have h1 := hpbsz.2.1
        have h2 := hbsz.2.1
        rw [ALIGN] at h1 h2 ⊢
        omega
      have hdatlen : (pb.bdata ++ le8 pb.bsize ++ le8 b.bsize ++ b.bdata).length =
          (pb.bsize + b.bsize) - (HEADER_SIZE + FOOTER_SIZE) := by
        have h1 := hpbsz.2.2
        have h2 := hbsz.2.2
        simp [le8_length]
        omega
      have hmg : merge_blocks { h with blocks := pre ++ ⟨b.bsize, false, b.bdata⟩ :: post }
          pre ⟨b.bsize, false, b.bdata⟩ post p =
          ({ h with
              blocks := pre.dropLast ++ ⟨pb.bsize + b.bsize, false,
                pb.bdata ++ le8 pb.bsize ++ le8 b.bsize ++ b.bdata⟩ :: post,
              root := delete h.root (pb.bsize, p - pb.bsize) },
            (pre.dropLast, ⟨pb.bsize + b.bsize, false,
              pb.bdata ++ le8 pb.bsize ++ le8 b.bsize ++ b.bdata⟩, post), p - pb.bsize) := by
        rw [merge_blocks, if_neg (by rw [hpf]; simp), if_pos (by rw [hpf, hnf]; rfl), hlastD]
      have hm : my_free h p = ⟨h.lo,
          pre.dropLast ++ ⟨pb.bsize + b.bsize, false,
            writeNode (pb.bsize + b.bsize)
              (pb.bdata ++ le8 pb.bsize ++ le8 b.bsize ++ b.bdata)⟩ :: post,
          insert (delete h.root (pb.bsize, p - pb.bsize)) (pb.bsize + b.bsize, p - pb.bsize),
          h.brkLimit⟩ := by
        rw [my_free, if_neg hp, hloc]
        simp only [hmg]
      rw [hq] at hm
      rw [hm]
      exact ⟨inv_rebuild h.lo h.brkLimit _ pre.dropLast post (pb.bsize + b.bsize) _
        hszdl hszq hS48 hS16 hdatlen hcdl.1 hcq hlastdl (next_free_chk_false hnf)
        (ordered_delete hord) hiff2, rfl, rfl⟩
    | true =>
      obtain ⟨nb, hheadq, hnbfree⟩ := next_free_chk_true hnf
      obtain ⟨tl, rfl⟩ := head?_decomp hheadq
      have hnbsz := hszq nb (by simp)
      have hnb1 := hnbsz.1
      have hszt : ∀ blk ∈ tl, MIN_BLOCK_SIZE ≤ blk.bsize ∧ blk.bsize % ALIGN = 0 ∧
          blk.bdata.length = blk.bsize - (HEADER_SIZE + FOOTER_SIZE) := fun blk hb =>
        hszq blk (by simp [hb])
      have htpos : ∀ blk ∈ tl, 0 < blk.bsize := fun blk hb => hqpos blk (by simp [hb])
      have hentpost : entriesAux (h.lo + sizeSum pre + b.bsize) (nb :: tl) =
          (nb.bsize, h.lo + sizeSum pre + b.bsize + HEADER_SIZE) ::
            entriesAux (h.lo + sizeSum pre + b.bsize + nb.bsize) tl := by
        rw [entriesAux_cons, hnbfree]
        simp
      have hkn : p + b.bsize = h.lo + sizeSum pre + b.bsize + HEADER_SIZE := by omega
      have htlR := entriesAux_mem_range tl (h.lo + sizeSum pre + b.bsize + nb.bsize) htpos
      have hoff : h.lo + sizeSum pre.dropLast + (pb.bsize + b.bsize + nb.bsize) =
          h.lo + sizeSum pre + b.bsize + nb.bsize := by omega
      have hiff2 : ∀ k, k ∈ inorder (delete (delete h.root
          (pb.bsize, h.lo + sizeSum pre.dropLast + HEADER_SIZE))
          (nb.bsize, h.lo + sizeSum pre + b.bsize + HEADER_SIZE)) ↔
          k ∈ entriesAux h.lo pre.dropLast ++
            entriesAux (h.lo + sizeSum pre.dropLast + (pb.bsize + b.bsize + nb.bsize))
              tl := by
        intro k
        rw [mem_inorder_delete (ordered_delete hord), mem_inorder_delete hord, hiff k,
          hentpre, hentpost, hoff]
        constructor
        · rintro ⟨⟨hmem, hnep⟩, hnen⟩
          rcases List.mem_append.mp hmem with hc | hc
          · rcases List.mem_append.mp hc with hc1 | hc2
            · exact List.mem_append.mpr (Or.inl hc1)
            · obtain rfl : k = (pb.bsize, h.lo + sizeSum pre.dropLast + HEADER_SIZE) := by
                simpa using hc2
              exact absurd rfl hnep
          · rcases List.mem_cons.mp hc with hc1 | hc2
            · exact absurd hc1 hnen
            · exact List.mem_append.mpr (Or.inr hc2)
        · intro hmem
          refine ⟨⟨?_, ?_⟩, ?_⟩
          · rcases List.mem_append.mp hmem with hc | hc
            · exact List.mem_append.mpr (Or.inl (List.mem_append.mpr (Or.inl hc)))
            · exact List.mem_append.mpr (Or.inr (List.mem_cons.mpr (Or.inr hc)))
          · intro hkeq
            rcases List.mem_append.mp hmem with hc | hc
            · have := (hdlR _ hc).2
              rw [hkeq] at this
              simp at this
            · have := (htlR _ hc).1
              rw [hkeq] at this
              simp at this
              omega
          · intro hkeq
            rcases List.mem_append.mp hmem with hc | hc
            · have := (hdlR _ hc).2
              rw [hkeq] at this
              simp at this
              omega
            · have := (htlR _ hc).1
              rw [hkeq] at this
              simp at this
              omega
      rw [List.chain'_cons'] at hcq
      have hheadt : ∀ y ∈ tl.head?, y.balloc = true := by
        intro y hy
        rcases hcq.1 y hy with hna | hya
        · rw [hnbfree] at hna
          exact absurd hna (by simp)
        · exact hya
      have hS48 : MIN_BLOCK_SIZE ≤ pb.bsize + b.bsize + nb.bsize := by omega
      have hS16 : (pb.bsize + b.bsize + nb.bsize) % ALIGN = 0 := by
        have h1 := hpbsz.2.1
        have h2 := hbsz.2.1
        have h3 := hnbsz.2.1
        rw [ALIGN] at h1 h2 h3 ⊢
        omega
      have hdatlen : (pb.bdata ++ le8 pb.bsize ++ le8 b.bsize ++ b.bdata ++
          le8 b.bsize ++ le8 nb.bsize ++ nb.bdata).length =
          (pb.bsize + b.bsize + nb.bsize) - (HEADER_SIZE + FOOTER_SIZE) := by
        have h1 := hpbsz.2.2
        have h2 := hbsz.2.2
        have h3 := hnbsz.2.2
        simp [le8_length]
        omega
      have hmg : merge_blocks { h with blocks := pre ++ ⟨b.bsize, false, b.bdata⟩ :: nb :: tl }
          pre ⟨b.bsize, false, b.bdata⟩ (nb :: tl) p =
          ({ h with
              blocks := pre.dropLast ++ ⟨pb.bsize + b.bsize + nb.bsize, false,
                pb.bdata ++ le8 pb.bsize ++ le8 b.bsize ++ b.bdata ++
                  le8 b.bsize ++ le8 nb.bsize ++ nb.bdata⟩ :: tl,
              root := delete (delete h.root (pb.bsize, p - pb.bsize))
                (nb.bsize, p + b.bsize) },
            (pre.dropLast, ⟨pb.bsize + b.bsize + nb.bsize, false,
              pb.bdata ++ le8 pb.bsize ++ le8 b.bsize ++ b.bdata ++
                le8 b.bsize ++ le8 nb.bsize ++ nb.bdata⟩, tl), p - pb.bsize) := by
        rw [merge_blocks, if_neg (by rw [hpf]; simp), if_neg (by rw [hnf]; simp),
          if_neg (by rw [hpf]; simp), hlastD]
        rfl
      have hm : my_free h p = ⟨h.lo,
          pre.dropLast ++ ⟨pb.bsize + b.bsize + nb.bsize, false,
            writeNode (pb.bsize + b.bsize + nb.bsize)
              (pb.bdata ++ le8 pb.bsize ++ le8 b.bsize ++ b.bdata ++
                le8 b.bsize ++ le8 nb.bsize ++ nb.bdata)⟩ :: tl,
          insert (delete (delete h.root (pb.bsize, p - pb.bsize)) (nb.bsize, p + b.bsize))
            (pb.bsize + b.bsize + nb.bsize, p - pb.bsize),
          h.brkLimit⟩ := by
        rw [my_free, if_neg hp, hloc]
        simp only [hmg]
      rw [hq, hkn] at hm
      rw [hm]
      exact ⟨inv_rebuild h.lo h.brkLimit _ pre.dropLast tl
        (pb.bsize + b.bsize + nb.bsize) _ hszdl hszt hS48 hS16 hdatlen hcdl.1 hcq.2
        hlastdl hheadt (ordered_delete (ordered_delete hord)) hiff2, rfl, rfl⟩

/-- my_free preserves the invariant for a valid call: a null pointer or
the payload pointer of an allocated block of the heap. -/
theorem my_free_spec (h : Heap) (p : Nat) (hInv : Inv h)
    (hval : p = 0 ∨ ∃ pre b post, locate h.lo h.blocks p = some (pre, b, post) ∧
      b.balloc = true) :
    Inv (my_free h p) ∧ (my_free h p).lo = h.lo ∧ (my_free h p).brkLimit = h.brkLimit := by
  obtain ⟨hsz, hadj, hord, hmatch⟩ := hInv
  by_cases hp : p = 0
  · subst hp
    have hm : my_free h 0 = h := by rw [my_free, if_pos rfl]
    rw [hm]
    exact ⟨⟨hsz, hadj, hord, hmatch⟩, rfl, rfl⟩
  · rcases hval with rfl | ⟨pre, b, post, hloc, hal⟩
    · exact absurd rfl hp
    · obtain ⟨hdec, hpeq⟩ := locate_spec h.blocks h.lo p pre b post hloc
      have hchain := @chain_decomp pre post b
        (by rw [← hdec]; exact hadj)
      have hent : freeEntries h =
          entriesAux h.lo pre ++ entriesAux (h.lo + sizeSum pre + b.bsize) post := by
        rw [freeEntries, hdec, entriesAux_append, entriesAux_cons, hal]
        simp
      exact my_free_core h p pre b post hp hloc hsz hchain.1 hchain.2.1 hord
        (fun k => by rw [← hent]; exact ⟨hmatch.1 k, hmatch.2 k⟩)

/-- Replacing a located block by one of equal size, allocation bit and
payload length (the memcpy of the realloc grow path, the memset of
calloc) preserves the invariant. -/
theorem inv_replace_data (h : Heap) (q : Nat) (pre : List Block) (c c2 : Block)
    (post : List Block) (hInv : Inv h)
    (hloc : locate h.lo h.blocks q = some (pre, c, post))
    (hsz2 : c2.bsize = c.bsize) (hal2 : c2.balloc = c.balloc)
    (hlen2 : c2.bdata.length = c.bdata.length) :
    Inv { h with blocks := pre ++ c2 :: post } := by
  obtain ⟨hsz, hadj, hord, hmatch⟩ := hInv
  obtain ⟨hdec, hqeq⟩ := locate_spec h.blocks h.lo q pre c post hloc
  have hcsz := hsz c (by rw [hdec]; exact List.mem_append.mpr (Or.inr (by simp)))
  have hent : entriesAux h.lo (pre ++ c2 :: post) = entriesAux h.lo (pre ++ c :: post) := by
    rw [entriesAux_append, entriesAux_cons, entriesAux_append, entriesAux_cons, hsz2, hal2]
  refine ⟨?_, ?_, hord, ?_, ?_⟩
  · intro blk hmem
    rcases List.mem_append.mp hmem with hb1 | hb2
    · exact hsz blk (by rw [hdec]; exact List.mem_append.mpr (Or.inl hb1))
    · rcases List.mem_cons.mp hb2 with hc | hc
      · rw [hc]
        exact ⟨by rw [hsz2]; exact hcsz.1, by rw [hsz2]; exact hcsz.2.1,
          by rw [hlen2, hsz2]; exact hcsz.2.2⟩
      · exact hsz blk (by rw [hdec]; exact List.mem_append.mpr (Or.inr (by simp [hc])))
  · have hchain := @chain_decomp pre post c
      (by rw [← hdec]; exact hadj)
    have := @chain_build pre post [c2] hchain.1 hchain.2.1
      (List.chain'_singleton _)
      (fun x hx y hy => by
        obtain rfl : c2 = y := by simpa using hy
        rcases hchain.2.2.1 x hx with h1 | h1
        · exact Or.inl h1
        · exact Or.inr (by rw [hal2]; exact h1))
      (fun x hx y hy => by
        obtain rfl : c2 = x := by simpa using hx
        rcases hchain.2.2.2 y hy with h1 | h1
        · exact Or.inl (by rw [hal2]; exact h1)
        · exact Or.inr h1)
      (by simp)
    simpa using this
  · intro k hk
    show k ∈ entriesAux h.lo _
    rw [hent, ← hdec]
    exact hmatch.1 k hk
  · intro k hk
    have hk2 : k ∈ entriesAux h.lo (pre ++ c2 :: post) := hk
    rw [hent, ← hdec] at hk2
    exact hmatch.2 k hk2

/-- my_calloc preserves the invariant. -/
theorem my_calloc_spec (h : Heap) (k n : Nat) (hInv : Inv h) :
    Inv (my_calloc h k n).1 ∧ (my_calloc h k n).1.lo = h.lo ∧
      (my_calloc h k n).1.brkLimit = h.brkLimit := by
  by_cases hz : k = 0 ∨ n = 0
  · have hm : my_calloc h k n = (h, none) := by rw [my_calloc, if_pos hz]
    rw [hm]
    exact ⟨hInv, rfl, rfl⟩
  · by_cases hov : (U64 - 1) / n < k
    · have hm : my_calloc h k n = (h, none) := by rw [my_calloc, if_neg hz, if_pos hov]
      rw [hm]
      exact ⟨hInv, rfl, rfl⟩
    · rcases hmres : my_malloc h (k * n % U64) with ⟨h1, ob⟩
      have h1eq : (my_malloc h (k * n % U64)).1 = h1 := by rw [hmres]
      have h2eq : (my_malloc h (k * n % U64)).2 = ob := by rw [hmres]
      have hspec := my_malloc_spec h (k * n % U64) hInv
      rw [h1eq, h2eq] at hspec
      cases ob with
      | none =>
        have hm : my_calloc h k n = (h1, none) := by
          rw [my_calloc, if_neg hz, if_neg hov, hmres]
        rw [hm]
        exact ⟨hspec.1, hspec.2.1, hspec.2.2.1⟩
      | some b =>
        obtain ⟨preq, bq, postq, hlocq, hbqal, hbqsz⟩ := hspec.2.2.2.2.1 b rfl
        have hInv1 := hspec.1
        have hlo1 : h1.lo = h.lo := hspec.2.1
        have hbrk1 : h1.brkLimit = h.brkLimit := hspec.2.2.1
        rw [← hlo1] at hlocq
        have hbqlen : bq.bdata.length = bq.bsize - (HEADER_SIZE + FOOTER_SIZE) := by
          obtain ⟨hdec1, hqeq1⟩ := locate_spec h1.blocks h1.lo b preq bq postq hlocq
          exact (hInv1.1 bq (by
            rw [hdec1]
            exact List.mem_append.mpr (Or.inr (by simp)))).2.2
        have hmemc : memsetBlock h1 b (k * n % U64) =
            { h1 with blocks := preq ++ ⟨bq.bsize, bq.balloc,
                (List.replicate (k * n % U64) 0 ++
                  bq.bdata.drop (k * n % U64)).take bq.bdata.length⟩ :: postq } := by
          rw [memsetBlock, hlocq]
        have hm : my_calloc h k n = (memsetBlock h1 b (k * n % U64), some b) := by
          rw [my_calloc, if_neg hz, if_neg hov, hmres]
        rw [hm, hmemc]
        have hInv2 := inv_replace_data h1 b preq bq
          ⟨bq.bsize, bq.balloc,
            (List.replicate (k * n % U64) 0 ++
              bq.bdata.drop (k * n % U64)).take bq.bdata.length⟩ postq hInv1 hlocq
          rfl rfl
          (by
            show ((List.replicate (k * n % U64) 0 ++
              bq.bdata.drop (k * n % U64)).take bq.bdata.length).length = bq.bdata.length
            rw [List.length_take, List.length_append, List.length_replicate,
              List.length_drop]
            omega)
        exact ⟨hInv2, hlo1, hbrk1⟩

/-- my_realloc preserves the invariant for a valid call: a null pointer
or the payload pointer of an allocated block. -/
theorem my_realloc_spec (h : Heap) (p n : Nat) (hInv : Inv h)
    (hval : p = 0 ∨ ∃ pre b post, locate h.lo h.blocks p = some (pre, b, post) ∧
      b.balloc = true) :
    Inv (my_realloc h p n).1 ∧ (my_realloc h p n).1.lo = h.lo ∧
      (my_realloc h p n).1.brkLimit = h.brkLimit := by
  by_cases hp : p = 0
  · subst hp
    have hm : my_realloc h 0 n = my_malloc h n := by rw [my_realloc, if_pos rfl]
    rw [hm]
    have := my_malloc_spec h n hInv
    exact ⟨this.1, this.2.1, this.2.2.1⟩
  · rcases hval with hval0 | ⟨pre, b, post, hloc, hal⟩
    · exact absurd hval0 hp
    by_cases hn : n = 0
    · subst hn
      have hm : my_realloc h p 0 = (my_free h p, none) := by
        rw [my_realloc, if_neg hp, if_pos rfl]
      rw [hm]
      have := my_free_spec h p hInv (Or.inr ⟨pre, b, post, hloc, hal⟩)
      exact ⟨this.1, this.2.1, this.2.2⟩
    · obtain ⟨N, hNdef⟩ : ∃ N,
          max MIN_BLOCK_SIZE (ALIGN_UP ((n + HEADER_SIZE + FOOTER_SIZE) % U64)) = N :=
        ⟨_, rfl⟩
      have h48 := MIN_BLOCK_SIZE_eq
      have hHF : HEADER_SIZE + FOOTER_SIZE = 16 := rfl
      have hH : HEADER_SIZE = 8 := rfl
      have hN48 : MIN_BLOCK_SIZE ≤ N := by
        rw [← hNdef]
        exact Nat.le_max_left _ _
      have hNmod : N % ALIGN = 0 := by
        rw [← hNdef]
        rcases Nat.le_total MIN_BLOCK_SIZE (ALIGN_UP ((n + HEADER_SIZE + FOOTER_SIZE) % U64))
          with hc | hc
        · rw [Nat.max_eq_right hc]
          exact ALIGN_UP_mod _
        · rw [Nat.max_eq_left hc, MIN_BLOCK_SIZE_eq, ALIGN]
      obtain ⟨hdec, hpeq⟩ := locate_spec h.blocks h.lo p pre b post hloc
      have hbsz := hInv.1 b (by rw [hdec]; exact List.mem_append.mpr (Or.inr (by simp)))
      by_cases hfit : N ≤ b.bsize
      · by_cases hrem : b.bsize - N < MIN_BLOCK_SIZE
        · have hm : my_realloc h p n = (h, some p) := by
            rw [my_realloc, if_neg hp, if_neg hn]
            simp only [hloc]
            rw [hNdef, if_pos hfit, if_pos hrem]
          rw [hm]
          exact ⟨hInv, rfl, rfl⟩
        · obtain ⟨hsz, hadj, hord, hmatch⟩ := hInv
          have hppos : ∀ blk ∈ pre, 0 < blk.bsize := fun blk hb => by
            have := (hsz blk (by rw [hdec]; exact List.mem_append.mpr (Or.inl hb))).1
            omega
          have hchain := @chain_decomp pre post b
            (by rw [← hdec]; exact hadj)
          have hm : my_realloc h p n =
              (my_free { h with blocks := pre ++
                  ⟨N, true, b.bdata.take (N - (HEADER_SIZE + FOOTER_SIZE))⟩ ::
                  ⟨b.bsize - N, false, b.bdata.drop N⟩ :: post } (p + N),
                some p) := by
            rw [my_realloc, if_neg hp, if_neg hn]
            simp only [hloc]
            rw [hNdef, if_pos hfit, if_neg hrem]
          have hpos1 : ∀ blk ∈ pre ++ [(⟨N, true,
              b.bdata.take (N - (HEADER_SIZE + FOOTER_SIZE))⟩ : Block)], 0 < blk.bsize := by
            intro blk hb
            rcases List.mem_append.mp hb with hc | hc
            · exact hppos blk hc
            · simp at hc
              rw [hc]
              show 0 < N
              omega
          have haddr : h.lo + sizeSum (pre ++ [(⟨N, true,
              b.bdata.take (N - (HEADER_SIZE + FOOTER_SIZE))⟩ : Block)]) + HEADER_SIZE =
              p + N := by
            rw [sizeSum_append, sizeSum_single]
            show h.lo + (sizeSum pre + N) + HEADER_SIZE = p + N
            omega
          have hcomp := locate_complete (pre ++ [(⟨N, true,
              b.bdata.take (N - (HEADER_SIZE + FOOTER_SIZE))⟩ : Block)]) h.lo
            ⟨b.bsize - N, false, b.bdata.drop N⟩ post hpos1
          rw [haddr] at hcomp
          have hlists : (pre ++ [(⟨N, true,
              b.bdata.take (N - (HEADER_SIZE + FOOTER_SIZE))⟩ : Block)]) ++
              ⟨b.bsize - N, false, b.bdata.drop N⟩ :: post =
              pre ++ ⟨N, true, b.bdata.take (N - (HEADER_SIZE + FOOTER_SIZE))⟩ ::
                ⟨b.bsize - N, false, b.bdata.drop N⟩ :: post := by simp
          rw [hlists] at hcomp
          have hsz3 : sizesOk (pre ++
              ⟨N, true, b.bdata.take (N - (HEADER_SIZE + FOOTER_SIZE))⟩ ::
              ⟨b.bsize - N, false, b.bdata.drop N⟩ :: post) := by
            intro blk hmem
            rcases List.mem_append.mp hmem with hb1 | hb2
            · exact hsz blk (by rw [hdec]; exact List.mem_append.mpr (Or.inl hb1))
            · rcases List.mem_cons.mp hb2 with hc | hc
              · rw [hc]
                refine ⟨hN48, hNmod, ?_⟩
                show (b.bdata.take (N - (HEADER_SIZE + FOOTER_SIZE))).length =
                  N - (HEADER_SIZE + FOOTER_SIZE)
                have hlen := hbsz.2.2
                rw [List.length_take]
                omega
              · rcases List.mem_cons.mp hc with hc2 | hc2
                · rw [hc2]
                  refine ⟨?_, ?_, ?_⟩
                  · show MIN_BLOCK_SIZE ≤ b.bsize - N
                    omega
                  · show (b.bsize - N) % ALIGN = 0
                    have h1 := hbsz.2.1
                    rw [ALIGN] at h1 hNmod ⊢
                    omega
                  · show (b.bdata.drop N).length = (b.bsize - N) - (HEADER_SIZE + FOOTER_SIZE)
                    have hlen := hbsz.2.2
                    rw [List.length_drop]
                    omega
                · exact hsz blk (by
                    rw [hdec]
                    exact List.mem_append.mpr (Or.inr (by simp [hc2])))
          have hcp3 : List.Chain' adjOk (pre ++ [(⟨N, true,
              b.bdata.take (N - (HEADER_SIZE + FOOTER_SIZE))⟩ : Block)]) := by
            rw [List.chain'_append]
            refine ⟨hchain.1, List.chain'_singleton _, ?_⟩
            intro x hx y hy
            refine Or.inr ?_
            obtain rfl : (⟨N, true, b.bdata.take (N - (HEADER_SIZE + FOOTER_SIZE))⟩ :
                Block) = y := by simpa using hy
            rfl
          have hent : freeEntries h =
              entriesAux h.lo pre ++ entriesAux (h.lo + sizeSum pre + b.bsize) post := by
            rw [freeEntries, hdec, entriesAux_append, entriesAux_cons, hal]
            simp
          have hentpre3 : entriesAux h.lo (pre ++ [(⟨N, true,
              b.bdata.take (N - (HEADER_SIZE + FOOTER_SIZE))⟩ : Block)]) =
              entriesAux h.lo pre := by
            rw [entriesAux_append, entriesAux_cons, entriesAux_nil]
            simp
          have hoffeq : h.lo + sizeSum (pre ++ [(⟨N, true,
              b.bdata.take (N - (HEADER_SIZE + FOOTER_SIZE))⟩ : Block)]) + (b.bsize - N) =
              h.lo + sizeSum pre + b.bsize := by
            rw [sizeSum_append, sizeSum_single]
            show h.lo + (sizeSum pre + N) + (b.bsize - N) = h.lo + sizeSum pre + b.bsize
            omega
          have hiff3 : ∀ k, k ∈ inorder h.root ↔
              k ∈ entriesAux h.lo (pre ++ [(⟨N, true,
                b.bdata.take (N - (HEADER_SIZE + FOOTER_SIZE))⟩ : Block)]) ++
                entriesAux (h.lo + sizeSum (pre ++ [(⟨N, true,
                  b.bdata.take (N - (HEADER_SIZE + FOOTER_SIZE))⟩ : Block)]) +
                  (b.bsize - N)) post := by
            intro k
            rw [hentpre3, hoffeq, ← hent]
            exact ⟨hmatch.1 k, hmatch.2 k⟩
          have hcore := my_free_core
            { h with blocks := pre ++
                ⟨N, true, b.bdata.take (N - (HEADER_SIZE + FOOTER_SIZE))⟩ ::
                ⟨b.bsize - N, false, b.bdata.drop N⟩ :: post }
            (p + N) (pre ++ [⟨N, true, b.bdata.take (N - (HEADER_SIZE + FOOTER_SIZE))⟩])
            ⟨b.bsize - N, false, b.bdata.drop N⟩ post
            (by omega) hcomp hsz3 hcp3 hchain.2.1 hord hiff3
          rw [hm]
          exact ⟨hcore.1, hcore.2.1, hcore.2.2⟩
      · rcases hmres : my_malloc h n with ⟨h1, ob⟩
        have h1eq : (my_malloc h n).1 = h1 := by rw [hmres]
        have h2eq : (my_malloc h n).2 = ob := by rw [hmres]
        have hspec := my_malloc_spec h n hInv
        rw [h1eq, h2eq] at hspec
        cases ob with
        | none =>
          have hm : my_realloc h p n = (h1, none) := by
            rw [my_realloc, if_neg hp, if_neg hn]
            simp only [hloc]
            rw [hNdef, if_neg hfit, hmres]
          rw [hm]
          exact ⟨hspec.1, hspec.2.1, hspec.2.2.1⟩
        | some q =>
          obtain ⟨hInv1, hlo1, hbrk1, hnone1, hsome1, hframe1⟩ := hspec
          obtain ⟨preq, bq, postq, hlocq, hbqal, hbqsz⟩ := hsome1 q rfl
          obtain ⟨pre2, post2, hlocp1⟩ := hframe1 p pre b post hloc hal
          rw [← hlo1] at hlocq hlocp1
          obtain ⟨hdec1, hqeq1⟩ := locate_spec h1.blocks h1.lo q preq bq postq hlocq
          have hbqlen : bq.bdata.length = bq.bsize - (HEADER_SIZE + FOOTER_SIZE) :=
            (hInv1.1 bq (by rw [hdec1]; exact List.mem_append.mpr (Or.inr (by simp)))).2.2
          have hpos1 : ∀ blk ∈ h1.blocks, 0 < blk.bsize := fun blk hb => by
            have := (hInv1.1 blk hb).1
            omega
          have hNreq : N = blockSizeReq n := by
            rw [← hNdef, blockSizeReq,
              show HEADER_SIZE + FOOTER_SIZE + n = n + HEADER_SIZE + FOOTER_SIZE by omega]
          obtain ⟨cnt, hcnt⟩ : ∃ c,
              (if n < b.bsize - (HEADER_SIZE + FOOTER_SIZE) then n
                else b.bsize - (HEADER_SIZE + FOOTER_SIZE)) = c := ⟨_, rfl⟩
          have hcntle : cnt ≤ b.bsize - (HEADER_SIZE + FOOTER_SIZE) := by
            rw [← hcnt]
            split <;> omega
          have hsrclen : (b.bdata.take cnt).length ≤ bq.bdata.length := by
            rw [List.length_take, hbqlen]
            have hblen := hbsz.2.2
            have hNlt : b.bsize < N := by omega
            have hNbq : N ≤ bq.bsize := by rw [hNreq]; exact hbqsz
            omega
          have hm : my_realloc h p n =
              (my_free (memcpyBlock h1 q (b.bdata.take cnt)) p, some q) := by
            rw [my_realloc, if_neg hp, if_neg hn]
            simp only [hloc]
            rw [hNdef, if_neg hfit, hmres, hcnt]
          have hmemc : memcpyBlock h1 q (b.bdata.take cnt) =
              { h1 with blocks := preq ++ ⟨bq.bsize, bq.balloc,
                  b.bdata.take cnt ++ bq.bdata.drop (b.bdata.take cnt).length⟩ :: postq } := by
            rw [memcpyBlock, hlocq]
          have hInv2 := inv_replace_data h1 q preq bq
            ⟨bq.bsize, bq.balloc,
              b.bdata.take cnt ++ bq.bdata.drop (b.bdata.take cnt).length⟩ postq hInv1 hlocq
            rfl rfl
            (by
              show (b.bdata.take cnt ++ bq.bdata.drop (b.bdata.take cnt).length).length =
                bq.bdata.length
              rw [List.length_append, List.length_drop]
              omega)
          rw [hdec1] at hlocp1
          have hfr := @locate_replace_frame h1.lo _ preq [bq]
            [⟨bq.bsize, bq.balloc,
              b.bdata.take cnt ++ bq.bdata.drop (b.bdata.take cnt).length⟩] postq _ _ _
            (by rw [sizeSum_single, sizeSum_single])
            (by
              intro blk hblk
              simp at hblk
              rw [hblk]
              show 0 < bq.bsize
              exact hpos1 bq (by rw [hdec1]; exact List.mem_append.mpr (Or.inr (by simp))))
            hlocp1
          have hval2 : ∃ pre4 b4 post4,
              locate h1.lo (preq ++ ⟨bq.bsize, bq.balloc,
                b.bdata.take cnt ++ bq.bdata.drop (b.bdata.take cnt).length⟩ :: postq) p =
                some (pre4, b4, post4) ∧ b4.balloc = true := by
            rcases hfr with ⟨a, c, d, hlc, hbc⟩ | ⟨pre3, post3, hlc, hsum3⟩
            · obtain ⟨hdecs, hps⟩ := locate_spec [bq] (h1.lo + sizeSum preq) p a c d hlc
              cases a with
              | cons x xs =>
                injection hdecs with hx hxs
                simp at hxs
              | nil =>
                injection hdecs with hx hxs
                have hpq : p = q := by
                  rw [hqeq1, hps, sizeSum_nil]
                  omega
                have hpreqpos : ∀ blk ∈ preq, 0 < blk.bsize := fun blk hb =>
                  hpos1 blk (by rw [hdec1]; exact List.mem_append.mpr (Or.inl hb))
                have hcomp := locate_complete preq h1.lo
                  ⟨bq.bsize, bq.balloc,
                    b.bdata.take cnt ++ bq.bdata.drop (b.bdata.take cnt).length⟩ postq
                  hpreqpos
                refine ⟨preq, ⟨bq.bsize, bq.balloc,
                  b.bdata.take cnt ++ bq.bdata.drop (b.bdata.take cnt).length⟩, postq,
                  ?_, ?_⟩
                · rw [hpq, hqeq1]
                  exact hcomp
                · show bq.balloc = true
                  exact hbqal
            · exact ⟨pre3, b, post3, hlc, hal⟩
          obtain ⟨pre4, b4, post4, hloc4, hal4⟩ := hval2
          have hspec2 := my_free_spec
            { h1 with blocks := preq ++ ⟨bq.bsize, bq.balloc,
                b.bdata.take cnt ++ bq.bdata.drop (b.bdata.take cnt).length⟩ :: postq }
            p hInv2 (Or.inr ⟨pre4, b4, post4, hloc4, hal4⟩)
          rw [hm, hmemc]
          exact ⟨hspec2.1, hspec2.2.1.trans hlo1, hspec2.2.2.trans hbrk1⟩

/-- Validity of a free or realloc call, read off the boolean contract
check: null, or a located allocated block. -/
theorem validOp_free_elim {h : Heap} {p : Nat} (hvalid :
    (p = 0 ||
      (match locate h.lo h.blocks p with
        | some (_, b, _) => b.balloc
        | none => false)) = true) :
    p = 0 ∨ ∃ pre b post, locate h.lo h.blocks p = some (pre, b, post) ∧
      b.balloc = true := by
  by_cases hp : p = 0
  · exact Or.inl hp
  · refine Or.inr ?_
    rw [Bool.or_eq_true] at hvalid
    rcases hvalid with h0 | hmatch
    · exact absurd (by simpa using h0) hp
    · cases hl : locate h.lo h.blocks p with
      | none =>
        rw [hl] at hmatch
        simp at hmatch
      | some trip =>
        obtain ⟨a, c, d⟩ := trip
        rw [hl] at hmatch
        exact ⟨a, c, d, rfl, hmatch⟩

/-- Every state reachable from an initial state by valid facade calls
satisfies the allocator invariant. -/
theorem reachable_inv (h : Heap) (hr : Reachable h) : Inv h := by
  induction hr with
  | base lo limit =>
    refine ⟨?_, ?_, ?_, ?_, ?_⟩
    · intro blk hmem
      simp [initHeap] at hmem
    · show List.Chain' adjOk []
      exact List.chain'_nil
    · trivial
    · intro k hk
      simp [initHeap, inorder] at hk
    · intro k hk
      simp [initHeap, freeEntries, entriesAux] at hk
  | next h2 op hr2 hvalid ih =>
    cases op with
    | malloc n => exact (my_malloc_spec h2 n ih).1
    | free p =>
      refine (my_free_spec h2 p ih ?_).1
      exact validOp_free_elim (by simpa [validOp] using hvalid)
    | realloc p n =>
      refine (my_realloc_spec h2 p n ih ?_).1
      exact validOp_free_elim (by simpa [validOp] using hvalid)
    | calloc k n => exact (my_calloc_spec h2 k n ih).1

/-- C3: in every state reachable by valid facade calls, no two adjacent
blocks of the heap are both free; in particular the coalescing invariant
still holds after any further valid my_free, so the block my_free
inserts has allocated (or absent) neighbors. -/
theorem c3_no_adjacent_free (h : Heap) (hreach : Reachable h) :
    noAdjFree h.blocks ∧
      ∀ p, validOp h (.free p) = true → noAdjFree (my_free h p).blocks := by
  refine ⟨(reachable_inv h hreach).2.1, ?_⟩
  intro p hv
  exact (reachable_inv _ (Reachable.next h (.free p) hreach hv)).2.1

/-- Witness for C3 at the state reached by malloc(32) followed by
freeing the returned block. -/
theorem c3_witness :
    noAdjFree (stepOp (stepOp (initHeap 0 1024) (.malloc 32)) (.free 8)).blocks ∧
      ∀ p, validOp (stepOp (stepOp (initHeap 0 1024) (.malloc 32)) (.free 8))
          (.free p) = true →
        noAdjFree (my_free (stepOp (stepOp (initHeap 0 1024) (.malloc 32)) (.free 8))
          p).blocks :=
  c3_no_adjacent_free _
    (Reachable.next _ (.free 8)
      (Reachable.next _ (.malloc 32) (Reachable.base 0 1024) (by decide))
      (by decide))

/-- C4 (amended): for nitems and size that are nonzero, pass the
overflow guard, and whose product plus the metadata and alignment slack
stays below 2^64, my_calloc returns a pointer whose block holds zeros in
the first nitems*size payload bytes; the payload bytes past the request,
present when the served block is larger than the request, are not
zeroed. -/
theorem c4_calloc_zeroes_request (h : Heap) (k n : Nat) (hInv : Inv h)
    (hk : ¬ k = 0) (hn : ¬ n = 0) (hov : ¬ (U64 - 1) / n < k)
    (hwrap : k * n + 47 < U64)
    (b : Nat) (hres : (my_calloc h k n).2 = some b) :
    ∃ pre c post, locate h.lo (my_calloc h k n).1.blocks b = some (pre, c, post) ∧
      c.bdata.take (k * n) = List.replicate (k * n) 0 := by
  have hHF : HEADER_SIZE + FOOTER_SIZE = 16 := rfl
  have h48 := MIN_BLOCK_SIZE_eq
  have hz : ¬ (k = 0 ∨ n = 0) := by
    intro hor
    rcases hor with rfl | rfl
    · exact hk rfl
    · exact hn rfl
  have hmod : k * n % U64 = k * n := Nat.mod_eq_of_lt (by omega)
  rcases hmres : my_malloc h (k * n % U64) with ⟨h1, ob⟩
  have h1eq : (my_malloc h (k * n % U64)).1 = h1 := by rw [hmres]
  have h2eq : (my_malloc h (k * n % U64)).2 = ob := by rw [hmres]
  have hspec := my_malloc_spec h (k * n % U64) hInv
  rw [h1eq, h2eq] at hspec
  cases ob with
  | none =>
    have hm : my_calloc h k n = (h1, none) := by
      rw [my_calloc, if_neg hz, if_neg hov, hmres]
    rw [hm] at hres
    simp at hres
  | some b0 =>
    have hm : my_calloc h k n = (memsetBlock h1 b0 (k * n % U64), some b0) := by
      rw [my_calloc, if_neg hz, if_neg hov, hmres]
    rw [hm] at hres
    have hbe : b0 = b := by simpa using hres
    rw [← hbe]
    obtain ⟨preq, bq, postq, hlocq, hbqal, hbqsz⟩ := hspec.2.2.2.2.1 b0 rfl
    have hInv1 := hspec.1
    have hlo1 : h1.lo = h.lo := hspec.2.1
    rw [← hlo1] at hlocq
    rw [hmod] at hbqsz hm
    obtain ⟨hdec1, hqeq1⟩ := locate_spec h1.blocks h1.lo b0 preq bq postq hlocq
    have hbqlen : bq.bdata.length = bq.bsize - (HEADER_SIZE + FOOTER_SIZE) :=
      (hInv1.1 bq (by rw [hdec1]; exact List.mem_append.mpr (Or.inr (by simp)))).2.2
    have hmU : (HEADER_SIZE + FOOTER_SIZE + k * n) % U64 =
        HEADER_SIZE + FOOTER_SIZE + k * n := Nat.mod_eq_of_lt (by omega)
    have hge : HEADER_SIZE + FOOTER_SIZE + k * n ≤ blockSizeReq (k * n) := by
      rw [blockSizeReq, hmU]
      refine le_trans (ALIGN_UP_ge ?_) (Nat.le_max_right _ _)
      omega
    have hmlen : k * n ≤ bq.bdata.length := by
      rw [hbqlen]
      omega
    have hmemc : memsetBlock h1 b0 (k * n) =
        { h1 with blocks := preq ++ ⟨bq.bsize, bq.balloc,
            (List.replicate (k * n) 0 ++ bq.bdata.drop (k * n)).take bq.bdata.length⟩ ::
            postq } := by
      rw [memsetBlock, hlocq]
    rw [hm, hmemc]
    have hpreqpos : ∀ blk ∈ preq, 0 < blk.bsize := fun blk hb => by
      have := (hInv1.1 blk (by rw [hdec1]; exact List.mem_append.mpr (Or.inl hb))).1
      omega
    have hcomp := locate_complete preq h1.lo
      ⟨bq.bsize, bq.balloc,
        (List.replicate (k * n) 0 ++ bq.bdata.drop (k * n)).take bq.bdata.length⟩
      postq hpreqpos
    refine ⟨preq, ⟨bq.bsize, bq.balloc,
      (List.replicate (k * n) 0 ++ bq.bdata.drop (k * n)).take bq.bdata.length⟩, postq,
      ?_, ?_⟩
    · show locate h.lo (preq ++ _ :: postq) b0 = _
      rw [← hlo1, hqeq1]
      exact hcomp
    · show ((List.replicate (k * n) 0 ++ bq.bdata.drop (k * n)).take
        bq.bdata.length).take (k * n) = List.replicate (k * n) 0
      rw [List.take_take, min_eq_left hmlen,
        List.take_append_of_le_length (by simp), List.take_replicate]
      simp

/-- Witness for C4 at calloc(1, 1) from the empty initial state. -/
theorem c4_witness :
    ∃ pre c post,
      locate (initHeap 0 1024).lo (my_calloc (initHeap 0 1024) 1 1).1.blocks 8 =
        some (pre, c, post) ∧ c.bdata.take (1 * 1) = List.replicate (1 * 1) 0 :=
  c4_calloc_zeroes_request (initHeap 0 1024) 1 1 (by decide) (by decide) (by decide)
    (by decide) (by norm_num [U64]) 8 (by decide)

/-- C7: on the grow path of my_realloc, when the internal allocation
fails the call returns null and the whole observable state, in
particular the old block's tags, its payload bytes and the free-block
index, is exactly as before the call; the old block is not freed. -/
theorem c7_realloc_grow_fail_frame (h : Heap) (p n : Nat) (hInv : Inv h)
    (hp : ¬ p = 0) (hn : ¬ n = 0)
    (pre : List Block) (b : Block) (post : List Block)
    (hloc : locate h.lo h.blocks p = some (pre, b, post))
    (hgrow : ¬ max MIN_BLOCK_SIZE (ALIGN_UP ((n + HEADER_SIZE + FOOTER_SIZE) % U64)) ≤
      b.bsize)
    (hfail : (my_malloc h n).2 = none) :
    my_realloc h p n = (h, none) := by
  have hframe : (my_malloc h n).1 = h := (my_malloc_spec h n hInv).2.2.2.1 hfail
  rcases hmres : my_malloc h n with ⟨h1, ob⟩
  have h1eq : h1 = h := by rw [← hframe, hmres]
  have hob : ob = none := by
    rw [hmres] at hfail
    exact hfail
  subst hob
  subst h1eq
  rw [my_realloc, if_neg hp, if_neg hn]
  simp only [hloc]
  rw [if_neg hgrow]
  simp only [hmres]

/-- Witness for C7: a heap of one allocated 48-byte block with the
break limit exhausted, grown to payload 100. -/
theorem c7_witness :
    my_realloc (Heap.mk 0 [⟨48, true, List.replicate 32 0⟩] .leaf 48) 8 100 =
      (Heap.mk 0 [⟨48, true, List.replicate 32 0⟩] .leaf 48, none) :=
  c7_realloc_grow_fail_frame (Heap.mk 0 [⟨48, true, List.replicate 32 0⟩] .leaf 48) 8 100
    (by decide) (by decide) (by decide) [] ⟨48, true, List.replicate 32 0⟩ []
    (by decide) (by decide) (by decide)

end Alloc
